import Mathlib

/-!
Shallow embedding of the in-memory order matching core of the
`eterna_backend` repository (`src/engine/orderBook.ts` and
`src/engine/matchingEngine.ts`), together with proofs of the
specification's claims about it.

Modelling conventions:
* JavaScript numbers (`price`, `quantity`, `filled`) are modelled as
  rationals; `createdAt` (epoch milliseconds) as an integer.
* The source mutates `Order` objects in place; the embedding passes
  updated values explicitly. Each mutating method returns the new state
  alongside its source return value.
* `uuid()` and `Date.now()` used by `createTrade` are environment
  inputs with no bearing on any claim; the embedding fixes them to
  `""` and `0`.
-/

/-- `type Side = "buy" | "sell"` from `src/models` (unnamed part_008). -/
inductive Side where
  | buy
  | sell
deriving DecidableEq, Repr

/-- `type OrderType = "limit" | "market"` from `src/models`. -/
inductive OrderType where
  | limit
  | market
deriving DecidableEq, Repr

/-- `type OrderStatus` from `src/models`. The source's string
`"partial"` (partially filled) is spelled `partFilled` here because the
source's word is reserved in Lean; every other constructor keeps the
source's name. -/
inductive OrderStatus where
  | pending
  | routing
  | building
  | submitted
  | confirmed
  | partFilled
  | filled
  | cancelled
  | failed
deriving DecidableEq, Repr

/-- `interface Order` from `src/models` (the fields the matching core
reads or writes; the optional DEX execution fields are never touched by
`OrderBook`/`MatchingEngine` and are omitted). -/
structure Order where
  id : String
  symbol : String
  side : Side
  type : OrderType
  price : ℚ
  quantity : ℚ
  filled : ℚ
  status : OrderStatus
  createdAt : ℤ
deriving DecidableEq, Repr

/-- `interface Trade` from `src/models`. -/
structure Trade where
  id : String
  symbol : String
  price : ℚ
  quantity : ℚ
  buyOrderId : String
  sellOrderId : String
  createdAt : ℤ
deriving DecidableEq, Repr

/-- `OrderBook.createTrade`: builds a `Trade` record. The source fills
`id` with `uuid()` and `createdAt` with `Date.now()`; both are
environment-supplied and irrelevant to every claim, so the embedding
fixes them. -/
def createTrade (symbol : String) (price quantity : ℚ)
    (buyOrderId sellOrderId : String) : Trade :=
  { id := ""
    symbol := symbol
    price := price
    quantity := quantity
    buyOrderId := buyOrderId
    sellOrderId := sellOrderId
    createdAt := 0 }

/-- `OrderBook.updateStatus`: sets `filled` when `filled ≥ quantity`,
else `partial` when `filled > 0`, else leaves the status unchanged. -/
def updateStatus (o : Order) : Order :=
  if o.quantity ≤ o.filled then { o with status := OrderStatus.filled }
  else if 0 < o.filled then { o with status := OrderStatus.partFilled }
  else o

/-- Result of one matching pass: the (mutated) incoming order, the
remaining opposite side, and the trades generated, in emission order. -/
structure MatchResult where
  order : Order
  rest : List Order
  trades : List Trade
deriving Repr

/-- `OrderBook.matchBuy`, the while loop turned into recursion on the
ask list. Loop guard: incoming has remaining quantity, asks non-empty,
and the incoming order is a market order or its price is at least the
best ask. Each iteration fills `qty = min(incoming remaining, best
remaining)` on both orders, emits a trade at the resting price, and
removes the best ask when it is fully filled. When the best ask is not
removed, `qty` equalled the incoming order's remaining quantity, so the
incoming order is fully filled and the source loop exits; the
embedding returns there. -/
def matchBuy (o : Order) : List Order → MatchResult
  | [] => ⟨o, [], []⟩
  | best :: rest =>
    if o.filled < o.quantity ∧
        (o.type = OrderType.market ∨ best.price ≤ o.price) then
      let qty := min (o.quantity - o.filled) (best.quantity - best.filled)
      let o' := { o with filled := o.filled + qty }
      let best' := updateStatus { best with filled := best.filled + qty }
      let t := createTrade o.symbol best.price qty o.id best.id
      if best'.quantity ≤ best'.filled then
        let r := matchBuy o' rest
        ⟨r.order, r.rest, t :: r.trades⟩
      else
        ⟨o', best' :: rest, [t]⟩
    else ⟨o, best :: rest, []⟩

/-- `OrderBook.matchSell`, mirror image of `matchBuy` against the bid
list: eligible while the incoming is a market order or its price is at
most the best bid; trades carry the resting bid's id as `buyOrderId`
and the incoming order's id as `sellOrderId`. -/
def matchSell (o : Order) : List Order → MatchResult
  | [] => ⟨o, [], []⟩
  | best :: rest =>
    if o.filled < o.quantity ∧
        (o.type = OrderType.market ∨ o.price ≤ best.price) then
      let qty := min (o.quantity - o.filled) (best.quantity - best.filled)
      let o' := { o with filled := o.filled + qty }
      let best' := updateStatus { best with filled := best.filled + qty }
      let t := createTrade o.symbol best.price qty best.id o.id
      if best'.quantity ≤ best'.filled then
        let r := matchSell o' rest
        ⟨r.order, r.rest, t :: r.trades⟩
      else
        ⟨o', best' :: rest, [t]⟩
    else ⟨o, best :: rest, []⟩

/-- `OrderBook.insertBuy`: insert before the first resting bid with a
strictly lower price, or with an equal price and a strictly later
`createdAt`; append if no such bid exists (descending price, FIFO at
equal price). -/
def insertBuy (o : Order) : List Order → List Order
  | [] => [o]
  | x :: rest =>
    if x.price < o.price ∨ (x.price = o.price ∧ o.createdAt < x.createdAt) then
      o :: x :: rest
    else
      x :: insertBuy o rest

/-- `OrderBook.insertSell`: insert before the first resting ask with a
strictly higher price, or with an equal price and a strictly later
`createdAt` (ascending price, FIFO at equal price). -/
def insertSell (o : Order) : List Order → List Order
  | [] => [o]
  | x :: rest =>
    if o.price < x.price ∨ (x.price = o.price ∧ o.createdAt < x.createdAt) then
      o :: x :: rest
    else
      x :: insertSell o rest

/-- The `OrderBook` class: one symbol, bids sorted highest price first,
asks sorted lowest price first. -/
structure OrderBook where
  symbol : String
  buys : List Order
  sells : List Order
deriving DecidableEq, Repr

/-- Result of `OrderBook.addOrder`: new book state, the (mutated)
incoming order, and the returned trades. -/
structure AddResult where
  book : OrderBook
  order : Order
  trades : List Trade
deriving Repr

/-- `OrderBook.addOrder`: match against the opposite side, insert the
remainder into its own side when the order is a `limit` order with
`quantity > filled`, and update the incoming order's status. In the
source, the final `updateStatus(order)` runs after the insertion but
mutates the very object the book holds, so the embedding applies it
before inserting; `updateStatus` only writes the `status` field, which
the insertion position never reads. -/
def OrderBook.addOrder (b : OrderBook) (o : Order) : AddResult :=
  match o.side with
  | Side.buy =>
    let r := matchBuy o b.sells
    let o' := updateStatus r.order
    let buys' :=
      if o'.filled < o'.quantity ∧ o'.type = OrderType.limit then
        insertBuy o' b.buys
      else b.buys
    ⟨{ b with buys := buys', sells := r.rest }, o', r.trades⟩
  | Side.sell =>
    let r := matchSell o b.buys
    let o' := updateStatus r.order
    let sells' :=
      if o'.filled < o'.quantity ∧ o'.type = OrderType.limit then
        insertSell o' b.sells
      else b.sells
    ⟨{ b with buys := r.rest, sells := sells' }, o', r.trades⟩

/-- Helper functionalising `findIndex` + status write + `splice` used
by `OrderBook.cancelOrder`: find the first order with the given id,
mark it `cancelled`, and remove it; `none` when no order matches. -/
def cancelList (orderId : String) : List Order → Option (Order × List Order)
  | [] => none
  | x :: rest =>
    if x.id = orderId then
      some ({ x with status := OrderStatus.cancelled }, rest)
    else
      match cancelList orderId rest with
      | none => none
      | some (c, rest') => some (c, x :: rest')

/-- `OrderBook.cancelOrder`: search the bids, then the asks, for the
first order with the given id; mark it cancelled and splice it out.
Returns whether an order was found, with the new book state. -/
def OrderBook.cancelOrder (b : OrderBook) (orderId : String) :
    Bool × OrderBook :=
  match cancelList orderId b.buys with
  | some (_, buys') => (true, { b with buys := buys' })
  | none =>
    match cancelList orderId b.sells with
    | some (_, sells') => (true, { b with sells := sells' })
    | none => (false, b)

/-- `OrderBook.getBids`: `return [...this.buys]` — a fresh array
holding the same resting orders in priority order. -/
def OrderBook.getBids (b : OrderBook) : List Order := b.buys

/-- `OrderBook.getAsks`: `return [...this.sells]`. -/
def OrderBook.getAsks (b : OrderBook) : List Order := b.sells

/-- One call against a single `OrderBook`: `addOrder` or
`cancelOrder`. -/
inductive BookOp where
  | add (o : Order)
  | cancel (orderId : String)

/-- Apply one `BookOp` to a book, keeping only the state (the trades
and the boolean go back to the caller). -/
def OrderBook.applyOp (b : OrderBook) : BookOp → OrderBook
  | BookOp.add o => (b.addOrder o).book
  | BookOp.cancel orderId => (b.cancelOrder orderId).2

/-- Apply a sequence of calls, oldest first. -/
def OrderBook.applyOps (b : OrderBook) : List BookOp → OrderBook
  | [] => b
  | op :: ops => (b.applyOp op).applyOps ops

/-- A freshly constructed `OrderBook` (the constructor): both sides
empty. -/
def emptyBook (symbol : String) : OrderBook :=
  { symbol := symbol, buys := [], sells := [] }

/-- The `MatchingEngine` class: its `Map<string, OrderBook>` modelled
as a function from symbols to optional books. -/
structure MatchingEngine where
  books : String → Option OrderBook

/-- `MatchingEngine.getOrCreateBook`: the existing book, or a fresh one
for the symbol. (The source also stores the fresh book in the map;
`MatchingEngine.submit`, its only caller, stores the post-`addOrder`
book below, which yields the same map contents.) -/
def MatchingEngine.getOrCreateBook (e : MatchingEngine) (symbol : String) :
    OrderBook :=
  match e.books symbol with
  | some b => b
  | none => emptyBook symbol

/-- `MatchingEngine.submit`: delegate to the symbol's book. -/
def MatchingEngine.submit (e : MatchingEngine) (o : Order) :
    MatchingEngine × Order × List Trade :=
  let b := e.getOrCreateBook o.symbol
  let r := b.addOrder o
  (⟨fun s => if s = o.symbol then some r.book else e.books s⟩,
   r.order, r.trades)

/-- `MatchingEngine.cancel`: absent symbol returns `false` with no book
created; otherwise delegates to `OrderBook.cancelOrder` (the source
mutates the book in place, modelled as rebinding the symbol's entry). -/
def MatchingEngine.cancel (e : MatchingEngine) (symbol orderId : String) :
    Bool × MatchingEngine :=
  match e.books symbol with
  | none => (false, e)
  | some b =>
    let r := b.cancelOrder orderId
    (r.1, ⟨fun s => if s = symbol then some r.2 else e.books s⟩)

/-! ## Predicates used to state the claims -/

/-- Sum of the `quantity` fields of a list of trades. -/
def tradeSum (ts : List Trade) : ℚ :=
  (ts.map Trade.quantity).sum

/-- Bid priority: `a` may rest (weakly) before `b` when `a` has the
higher price, or equal price and the earlier-or-equal `createdAt`. -/
def bidLE (a b : Order) : Prop :=
  b.price < a.price ∨ (a.price = b.price ∧ a.createdAt ≤ b.createdAt)

/-- Ask priority: `a` may rest (weakly) before `b` when `a` has the
lower price, or equal price and the earlier-or-equal `createdAt`. -/
def askLE (a b : Order) : Prop :=
  a.price < b.price ∨ (a.price = b.price ∧ a.createdAt ≤ b.createdAt)

/-- All orders resting in a book, bids then asks. -/
def bookOrders (b : OrderBook) : List Order :=
  b.buys ++ b.sells

/-- Both sides sorted by their priority relations. -/
def SortedBook (b : OrderBook) : Prop :=
  List.Pairwise bidLE b.buys ∧ List.Pairwise askLE b.sells

/-- Every resting order has `0 ≤ filled ≤ quantity`. -/
def FillBounds (b : OrderBook) : Prop :=
  ∀ o ∈ bookOrders b, 0 ≤ o.filled ∧ o.filled ≤ o.quantity

/-- Every resting order is a limit order with `filled < quantity`. -/
def RestingLimit (b : OrderBook) : Prop :=
  ∀ o ∈ bookOrders b, o.type = OrderType.limit ∧ o.filled < o.quantity

/-- A well-formed order as it arrives at the core (spec §3/§6):
positive quantity, `0 ≤ filled ≤ quantity`. -/
def ArrivalWF (o : Order) : Prop :=
  0 < o.quantity ∧ 0 ≤ o.filled ∧ o.filled ≤ o.quantity

/-- A freshly submitted order: positive quantity, nothing filled yet,
status `pending`. -/
def SubmissionWF (o : Order) : Prop :=
  0 < o.quantity ∧ o.filled = 0 ∧ o.status = OrderStatus.pending

/-- Lift `ArrivalWF` to operations (cancellations carry no order). -/
def opArrivalWF : BookOp → Prop
  | BookOp.add o => ArrivalWF o
  | BookOp.cancel _ => True

/-- Lift `SubmissionWF` to operations. -/
def opSubmissionWF : BookOp → Prop
  | BookOp.add o => SubmissionWF o
  | BookOp.cancel _ => True

/-- An order's `status` agrees with its fill state: `pending` exactly
when nothing is filled, `partial` exactly when strictly between, and
`filled` exactly at full fill; never `cancelled`. -/
def statusDerived (o : Order) : Prop :=
  (o.status = OrderStatus.pending ↔ o.filled = 0) ∧
  (o.status = OrderStatus.partFilled ↔ (0 < o.filled ∧ o.filled < o.quantity)) ∧
  (o.status = OrderStatus.filled ↔ o.filled = o.quantity) ∧
  o.status ≠ OrderStatus.cancelled

/-- Book-level invariant behind the status claim: every resting order
has `0 ≤ filled < quantity` and is `pending` exactly on zero fill,
`partial` otherwise. -/
def StatusInv (b : OrderBook) : Prop :=
  ∀ o ∈ bookOrders b, 0 ≤ o.filled ∧ o.filled < o.quantity ∧
    ((o.filled = 0 ∧ o.status = OrderStatus.pending) ∨
      (0 < o.filled ∧ o.status = OrderStatus.partFilled))

/-- How one matching pass transforms the opposite side: some prefix of
`old` (its `n` best-priority orders) is consumed whole — each such
order receiving a trade (identified through `restingId`, the trade
field naming the resting side) for exactly its remaining quantity —
and at most the next order is partially consumed in place (`filled`
bumped by `d ≥ 0`, status recomputed, still short of `quantity`);
everything beyond is untouched, in its original relative position. -/
def matchedAway (old new : List Order) (trades : List Trade)
    (restingId : Trade → String) : Prop :=
  ∃ n, n ≤ old.length ∧
    (new = old.drop n ∨
      ∃ h t d, old.drop n = h :: t ∧ 0 ≤ d ∧ h.filled + d < h.quantity ∧
        new = updateStatus { h with filled := h.filled + d } :: t) ∧
    ∀ r ∈ old.take n, ∃ tr ∈ trades,
      restingId tr = r.id ∧ tr.quantity = r.quantity - r.filled

/-- The incoming order cannot cross: it is a limit order whose price is
strictly worse than the best opposing price, or the opposing side is
empty. -/
def crossBlocked (b : OrderBook) (o : Order) : Prop :=
  match o.side with
  | Side.buy => ∀ s ∈ b.sells.head?, o.price < s.price
  | Side.sell => ∀ s ∈ b.buys.head?, s.price < o.price

/-! ## Reference-level model for the snapshot claim

`getBids()` is `return [...this.buys]`: the spread copies the *array*,
not the `Order` objects — the fresh array holds the very references the
book holds. To reason about what a caller's mutation of the returned
value does to the book, this auxiliary model makes the object heap
explicit: `Order` objects live in a store, and a book side is an array
of references into it. -/

/-- A book side as the runtime sees it: an array of references
(indices) into the object store. -/
structure HeapBook where
  buys : List ℕ
  sells : List ℕ
deriving DecidableEq, Repr

/-- `getBids` at the reference level: a fresh array containing the same
references, in the same priority order. -/
def getBidsRefs (hb : HeapBook) : List ℕ :=
  hb.buys

/-- The orders a book side denotes, read through the store. -/
def readOrders (store : List Order) (refs : List ℕ) : List Order :=
  refs.filterMap store.get?

/-- A caller's field mutation of the `Order` object behind reference
`r` (e.g. `view[0].filled = …`): the store is updated in place; no
array changes. -/
def mutateStore (store : List Order) (r : ℕ) (v : Order) : List Order :=
  store.set r v

/-! ## Sample objects for the witness theorems -/

/-- A resting limit ask: 3 units at price 100. -/
def oAsk : Order :=
  ⟨"s1", "SYM", Side.sell, OrderType.limit, 100, 3, 0, OrderStatus.pending, 1⟩

def oAsk2 : Order :=
  ⟨"s2", "SYM", Side.sell, OrderType.limit, 101, 3, 0, OrderStatus.pending, 2⟩

def oBuy : Order :=
  ⟨"b1", "SYM", Side.buy, OrderType.limit, 100, 5, 0, OrderStatus.pending, 3⟩

def oBuyLow : Order :=
  ⟨"b2", "SYM", Side.buy, OrderType.limit, 99, 5, 0, OrderStatus.pending, 4⟩

def oMkt : Order :=
  ⟨"m1", "SYM", Side.buy, OrderType.market, 0, 4, 0, OrderStatus.pending, 5⟩

def bookA : OrderBook := ⟨"SYM", [], [oAsk]⟩

def bookB : OrderBook := ⟨"SYM", [oBuy], []⟩

def engineA : MatchingEngine := ⟨fun s => if s = "SYM" then some bookB else none⟩

def storeA : List Order := [oBuy]

def heapA : HeapBook := ⟨[0], []⟩

/-- `oBuy` with its `filled` field overwritten, as a caller could do
through a shared reference. -/
def oBuyMut : Order :=
  ⟨"b1", "SYM", Side.buy, OrderType.limit, 100, 5, 5, OrderStatus.pending, 3⟩

/-! ## Helper lemmas -/

@[simp]
theorem updateStatus_id (o : Order) : (updateStatus o).id = o.id := by
  unfold updateStatus; split_ifs <;> rfl

@[simp]
theorem updateStatus_symbol (o : Order) : (updateStatus o).symbol = o.symbol := by
  unfold updateStatus; split_ifs <;> rfl

@[simp]
theorem updateStatus_side (o : Order) : (updateStatus o).side = o.side := by
  unfold updateStatus; split_ifs <;> rfl

@[simp]
theorem updateStatus_type (o : Order) : (updateStatus o).type = o.type := by
  unfold updateStatus; split_ifs <;> rfl

@[simp]
theorem updateStatus_price (o : Order) : (updateStatus o).price = o.price := by
  unfold updateStatus; split_ifs <;> rfl

@[simp]
theorem updateStatus_quantity (o : Order) : (updateStatus o).quantity = o.quantity := by
  unfold updateStatus; split_ifs <;> rfl

@[simp]
theorem updateStatus_filled (o : Order) : (updateStatus o).filled = o.filled := by
  unfold updateStatus; split_ifs <;> rfl

@[simp]
theorem updateStatus_createdAt (o : Order) : (updateStatus o).createdAt = o.createdAt := by
  unfold updateStatus; split_ifs <;> rfl

/-- `matchBuy` only ever writes the incoming order's `filled` field. -/
theorem matchBuy_order_shape (o : Order) (s : List Order) :
    ∃ f, (matchBuy o s).order = { o with filled := f } := by
  induction s generalizing o with
  | nil => exact ⟨o.filled, rfl⟩
  | cons best rest ih =>
    rw [matchBuy]
    dsimp only
    split
    · split
      · obtain ⟨f, hf⟩ := ih _
        exact ⟨f, hf⟩
      · exact ⟨_, rfl⟩
    · exact ⟨o.filled, rfl⟩

@[simp]
theorem tradeSum_nil : tradeSum [] = 0 := rfl

@[simp]
theorem tradeSum_cons (t : Trade) (ts : List Trade) :
    tradeSum (t :: ts) = t.quantity + tradeSum ts := by
  simp [tradeSum]

/-- Conservation inside one `matchBuy` pass: the trade quantities sum
to the increase of the incoming order's `filled`. -/
theorem matchBuy_tradeSum (o : Order) (s : List Order) :
    tradeSum (matchBuy o s).trades = (matchBuy o s).order.filled - o.filled := by
  induction s generalizing o with
  | nil => simp [matchBuy]
  | cons best rest ih =>
    rw [matchBuy]
    dsimp only
    split
    · split
      · dsimp only
        rw [tradeSum_cons, ih]
        dsimp only [createTrade]
        ring
      · dsimp only
        rw [tradeSum_cons, tradeSum_nil]
        dsimp only [createTrade]
        ring
    · simp

/-- The incoming order's `filled` never decreases during `matchBuy`,
provided the resting asks are not over-filled. -/
theorem matchBuy_filled_mono (o : Order) (s : List Order)
    (hWF : ∀ r ∈ s, r.filled ≤ r.quantity) :
    o.filled ≤ (matchBuy o s).order.filled := by
  induction s generalizing o with
  | nil => simp [matchBuy]
  | cons best rest ih =>
    rw [matchBuy]
    dsimp only
    split
    · rename_i hg
      have hqty : (0:ℚ) ≤ min (o.quantity - o.filled) (best.quantity - best.filled) :=
        le_min (by linarith [hg.1]) (by linarith [hWF best (List.mem_cons_self best rest)])
      split
      · dsimp only
        refine le_trans ?_ (ih _ (fun r hr => hWF r (List.mem_cons_of_mem best hr)))
        dsimp only
        linarith
      · dsimp only
        linarith
    · simp

/-- The incoming order's `filled` never exceeds its `quantity` during
`matchBuy`, as long as it started within bounds. -/
theorem matchBuy_filled_le (o : Order) (s : List Order)
    (h : o.filled ≤ o.quantity) :
    (matchBuy o s).order.filled ≤ o.quantity := by
  induction s generalizing o with
  | nil => simpa [matchBuy] using h
  | cons best rest ih =>
    rw [matchBuy]
    dsimp only
    split
    · rename_i hg
      have hle : min (o.quantity - o.filled) (best.quantity - best.filled)
          ≤ o.quantity - o.filled := min_le_left _ _
      split
      · dsimp only
        exact ih _ (by dsimp only; linarith)
      · dsimp only
        linarith
    · simpa using h

/-- Every trade emitted by `matchBuy` is priced at a resting ask's
price and tagged with the incoming order's id as the buy id and that
resting ask's id as the sell id. -/
theorem matchBuy_trades_spec (o : Order) (s : List Order) :
    ∀ t ∈ (matchBuy o s).trades, ∃ r ∈ s,
      t.price = r.price ∧ t.buyOrderId = o.id ∧ t.sellOrderId = r.id ∧
      t.symbol = o.symbol := by
  induction s generalizing o with
  | nil => simp [matchBuy]
  | cons best rest ih =>
    rw [matchBuy]
    dsimp only
    split
    · split
      · dsimp only
        intro t ht
        rcases List.mem_cons.mp ht with rfl | ht'
        · exact ⟨best, List.mem_cons_self best rest, rfl, rfl, rfl, rfl⟩
        · obtain ⟨r, hr, hp⟩ := ih _ t ht'
          exact ⟨r, List.mem_cons_of_mem best hr, hp⟩
      · dsimp only
        intro t ht
        rcases List.mem_cons.mp ht with rfl | ht'
        · exact ⟨best, List.mem_cons_self best rest, rfl, rfl, rfl, rfl⟩
        · simp at ht'
    · simp

/-- How `matchBuy` transforms the ask list: a best-priority prefix is
consumed whole (each consumed ask receiving a trade for exactly its
remaining quantity), at most the next ask is partially filled in
place, and the rest is untouched. -/
theorem matchBuy_matchedAway (o : Order) (s : List Order)
    (hWF : ∀ r ∈ s, r.filled ≤ r.quantity) :
    matchedAway s (matchBuy o s).rest (matchBuy o s).trades Trade.sellOrderId := by
  induction s generalizing o with
  | nil => exact ⟨0, Nat.le_refl 0, Or.inl rfl, by simp⟩
  | cons best rest ih =>
    rw [matchBuy]
    dsimp only
    split
    · rename_i hg
      have hqty : (0:ℚ) ≤ min (o.quantity - o.filled) (best.quantity - best.filled) :=
        le_min (by linarith [hg.1]) (by linarith [hWF best (List.mem_cons_self best rest)])
      split
      · rename_i hfull
        simp only [updateStatus_quantity, updateStatus_filled] at hfull
        obtain ⟨n, hn, hdisj, htake⟩ := ih _ (fun r hr => hWF r (List.mem_cons_of_mem best hr))
        refine ⟨n + 1, by simpa using hn, by simpa using hdisj, ?_⟩
        intro r hr
        rcases List.mem_cons.mp (by simpa using hr) with rfl | hr'
        · refine ⟨createTrade o.symbol r.price
            (min (o.quantity - o.filled) (r.quantity - r.filled)) o.id r.id,
            List.mem_cons_self _ _, rfl, ?_⟩
          have h1 : min (o.quantity - o.filled) (r.quantity - r.filled)
              ≤ r.quantity - r.filled := min_le_right _ _
          have h2 : r.quantity - r.filled
              ≤ min (o.quantity - o.filled) (r.quantity - r.filled) := by
            linarith
          dsimp only [createTrade]
          linarith
        · obtain ⟨tr, htr, hp⟩ := htake r hr'
          exact ⟨tr, List.mem_cons_of_mem _ htr, hp⟩
      · rename_i hfull
        simp only [updateStatus_quantity, updateStatus_filled, not_le] at hfull
        refine ⟨0, Nat.zero_le _, Or.inr ⟨best, rest,
          min (o.quantity - o.filled) (best.quantity - best.filled), rfl, hqty,
          by linarith, rfl⟩, by simp⟩
    · exact ⟨0, Nat.zero_le _, Or.inl rfl, by simp⟩

/-- `askLE` only reads `price` and `createdAt`. -/
theorem askLE_congr_left {a a' b : Order} (hp : a'.price = a.price)
    (hc : a'.createdAt = a.createdAt) : askLE a b → askLE a' b := by
  unfold askLE
  rw [hp, hc]
  exact id

/-- `bidLE` only reads `price` and `createdAt`. -/
theorem bidLE_congr_left {a a' b : Order} (hp : a'.price = a.price)
    (hc : a'.createdAt = a.createdAt) : bidLE a b → bidLE a' b := by
  unfold bidLE
  rw [hp, hc]
  exact id

/-- Matching preserves the ordering of the ask list: it only removes
asks from the front and rewrites `filled`/`status` of the new head. -/
theorem matchBuy_sorted (o : Order) (s : List Order)
    (hs : List.Pairwise askLE s) : List.Pairwise askLE (matchBuy o s).rest := by
  induction s generalizing o with
  | nil => simp [matchBuy]
  | cons best rest ih =>
    rw [matchBuy]
    dsimp only
    split
    · split
      · exact ih _ (List.Pairwise.of_cons hs)
      · dsimp only
        rw [List.pairwise_cons] at hs ⊢
        refine ⟨fun r hr => ?_, hs.2⟩
        exact askLE_congr_left (by simp) (by simp) (hs.1 r hr)
    · exact hs

theorem bidLE_trans {a b c : Order} (h1 : bidLE a b) (h2 : bidLE b c) :
    bidLE a c := by
  unfold bidLE at *
  rcases h1 with h1 | ⟨h1, h1'⟩ <;> rcases h2 with h2 | ⟨h2, h2'⟩
  · exact Or.inl (lt_trans h2 h1)
  · exact Or.inl (h2 ▸ h1)
  · exact Or.inl (h1 ▸ h2)
  · exact Or.inr ⟨h1.trans h2, h1'.trans h2'⟩

theorem askLE_trans {a b c : Order} (h1 : askLE a b) (h2 : askLE b c) :
    askLE a c := by
  unfold askLE at *
  rcases h1 with h1 | ⟨h1, h1'⟩ <;> rcases h2 with h2 | ⟨h2, h2'⟩
  · exact Or.inl (lt_trans h1 h2)
  · exact Or.inl (h2 ▸ h1)
  · exact Or.inl (h1 ▸ h2)
  · exact Or.inr ⟨h1.trans h2, h1'.trans h2'⟩

/-- Membership after an ordered bid insertion. -/
theorem mem_insertBuy {y o : Order} {l : List Order} :
    y ∈ insertBuy o l ↔ y = o ∨ y ∈ l := by
  induction l with
  | nil => simp [insertBuy]
  | cons x rest ih =>
    rw [insertBuy]
    split
    · simp
    · simp only [List.mem_cons, ih]
      tauto

/-- Membership after an ordered ask insertion. -/
theorem mem_insertSell {y o : Order} {l : List Order} :
    y ∈ insertSell o l ↔ y = o ∨ y ∈ l := by
  induction l with
  | nil => simp [insertSell]
  | cons x rest ih =>
    rw [insertSell]
    split
    · simp
    · simp only [List.mem_cons, ih]
      tauto

/-- `insertBuy` keeps the bid list sorted: the new bid goes before the
first resting bid with a worse price, or a later arrival at the same
price. -/
theorem insertBuy_sorted (o : Order) (l : List Order)
    (hl : List.Pairwise bidLE l) : List.Pairwise bidLE (insertBuy o l) := by
  induction l with
  | nil => simp [insertBuy]
  | cons x rest ih =>
    rw [insertBuy]
    split
    · rename_i hcond
      have hox : bidLE o x := by
        unfold bidLE
        rcases hcond with h | ⟨h, h'⟩
        · exact Or.inl h
        · exact Or.inr ⟨h.symm, le_of_lt h'⟩
      refine List.Pairwise.cons (fun y hy => ?_) hl
      rcases List.mem_cons.mp hy with rfl | hy'
      · exact hox
      · exact bidLE_trans hox (List.rel_of_pairwise_cons hl hy')
    · rename_i hcond
      push_neg at hcond
      have hxo : bidLE x o := by
        unfold bidLE
        rcases lt_or_eq_of_le hcond.1 with h | h
        · exact Or.inl h
        · exact Or.inr ⟨h.symm, hcond.2 h.symm⟩
      rw [List.pairwise_cons] at hl
      refine List.Pairwise.cons (fun y hy => ?_) (ih hl.2)
      rcases mem_insertBuy.mp hy with rfl | hy'
      · exact hxo
      · exact hl.1 y hy'

/-- `insertSell` keeps the ask list sorted. -/
theorem insertSell_sorted (o : Order) (l : List Order)
    (hl : List.Pairwise askLE l) : List.Pairwise askLE (insertSell o l) := by
  induction l with
  | nil => simp [insertSell]
  | cons x rest ih =>
    rw [insertSell]
    split
    · rename_i hcond
      have hox : askLE o x := by
        unfold askLE
        rcases hcond with h | ⟨h, h'⟩
        · exact Or.inl h
        · exact Or.inr ⟨h.symm, le_of_lt h'⟩
      refine List.Pairwise.cons (fun y hy => ?_) hl
      rcases List.mem_cons.mp hy with rfl | hy'
      · exact hox
      · exact askLE_trans hox (List.rel_of_pairwise_cons hl hy')
    · rename_i hcond
      push_neg at hcond
      have hxo : askLE x o := by
        unfold askLE
        rcases lt_or_eq_of_le hcond.1 with h | h
        · exact Or.inl h
        · exact Or.inr ⟨h, hcond.2 h⟩
      rw [List.pairwise_cons] at hl
      refine List.Pairwise.cons (fun y hy => ?_) (ih hl.2)
      rcases mem_insertSell.mp hy with rfl | hy'
      · exact hxo
      · exact hl.1 y hy'

/-- `matchSell` only ever writes the incoming order's `filled` field. -/
theorem matchSell_order_shape (o : Order) (s : List Order) :
    ∃ f, (matchSell o s).order = { o with filled := f } := by
  induction s generalizing o with
  | nil => exact ⟨o.filled, rfl⟩
  | cons best rest ih =>
    rw [matchSell]
    dsimp only
    split
    · split
      · obtain ⟨f, hf⟩ := ih _
        exact ⟨f, hf⟩
      · exact ⟨_, rfl⟩
    · exact ⟨o.filled, rfl⟩

/-- Conservation inside one `matchSell` pass. -/
theorem matchSell_tradeSum (o : Order) (s : List Order) :
    tradeSum (matchSell o s).trades = (matchSell o s).order.filled - o.filled := by
  induction s generalizing o with
  | nil => simp [matchSell]
  | cons best rest ih =>
    rw [matchSell]
    dsimp only
    split
    · split
      · dsimp only
        rw [tradeSum_cons, ih]
        dsimp only [createTrade]
        ring
      · dsimp only
        rw [tradeSum_cons, tradeSum_nil]
        dsimp only [createTrade]
        ring
    · simp

/-- The incoming order's `filled` never decreases during `matchSell`. -/
theorem matchSell_filled_mono (o : Order) (s : List Order)
    (hWF : ∀ r ∈ s, r.filled ≤ r.quantity) :
    o.filled ≤ (matchSell o s).order.filled := by
  induction s generalizing o with
  | nil => simp [matchSell]
  | cons best rest ih =>
    rw [matchSell]
    dsimp only
    split
    · rename_i hg
      have hqty : (0:ℚ) ≤ min (o.quantity - o.filled) (best.quantity - best.filled) :=
        le_min (by linarith [hg.1]) (by linarith [hWF best (List.mem_cons_self best rest)])
      split
      · dsimp only
        refine le_trans ?_ (ih _ (fun r hr => hWF r (List.mem_cons_of_mem best hr)))
        dsimp only
        linarith
      · dsimp only
        linarith
    · simp

/-- The incoming order's `filled` never exceeds its `quantity` during
`matchSell`. -/
theorem matchSell_filled_le (o : Order) (s : List Order)
    (h : o.filled ≤ o.quantity) :
    (matchSell o s).order.filled ≤ o.quantity := by
  induction s generalizing o with
  | nil => simpa [matchSell] using h
  | cons best rest ih =>
    rw [matchSell]
    dsimp only
    split
    · rename_i hg
      have hle : min (o.quantity - o.filled) (best.quantity - best.filled)
          ≤ o.quantity - o.filled := min_le_left _ _
      split
      · dsimp only
        exact ih _ (by dsimp only; linarith)
      · dsimp only
        linarith
    · simpa using h

/-- Every trade emitted by `matchSell` is priced at a resting bid's
price, with that bid's id as the buy id and the incoming order's id as
the sell id. -/
theorem matchSell_trades_spec (o : Order) (s : List Order) :
    ∀ t ∈ (matchSell o s).trades, ∃ r ∈ s,
      t.price = r.price ∧ t.buyOrderId = r.id ∧ t.sellOrderId = o.id ∧
      t.symbol = o.symbol := by
  induction s generalizing o with
  | nil => simp [matchSell]
  | cons best rest ih =>
    rw [matchSell]
    dsimp only
    split
    · split
      · dsimp only
        intro t ht
        rcases List.mem_cons.mp ht with rfl | ht'
        · exact ⟨best, List.mem_cons_self best rest, rfl, rfl, rfl, rfl⟩
        · obtain ⟨r, hr, hp⟩ := ih _ t ht'
          exact ⟨r, List.mem_cons_of_mem best hr, hp⟩
      · dsimp only
        intro t ht
        rcases List.mem_cons.mp ht with rfl | ht'
        · exact ⟨best, List.mem_cons_self best rest, rfl, rfl, rfl, rfl⟩
        · simp at ht'
    · simp

/-- How `matchSell` transforms the bid list. -/
theorem matchSell_matchedAway (o : Order) (s : List Order)
    (hWF : ∀ r ∈ s, r.filled ≤ r.quantity) :
    matchedAway s (matchSell o s).rest (matchSell o s).trades Trade.buyOrderId := by
  induction s generalizing o with
  | nil => exact ⟨0, Nat.le_refl 0, Or.inl rfl, by simp⟩
  | cons best rest ih =>
    rw [matchSell]
    dsimp only
    split
    · rename_i hg
      have hqty : (0:ℚ) ≤ min (o.quantity - o.filled) (best.quantity - best.filled) :=
        le_min (by linarith [hg.1]) (by linarith [hWF best (List.mem_cons_self best rest)])
      split
      · rename_i hfull
        simp only [updateStatus_quantity, updateStatus_filled] at hfull
        obtain ⟨n, hn, hdisj, htake⟩ := ih _ (fun r hr => hWF r (List.mem_cons_of_mem best hr))
        refine ⟨n + 1, by simpa using hn, by simpa using hdisj, ?_⟩
        intro r hr
        rcases List.mem_cons.mp (by simpa using hr) with rfl | hr'
        · refine ⟨createTrade o.symbol r.price
            (min (o.quantity - o.filled) (r.quantity - r.filled)) r.id o.id,
            List.mem_cons_self _ _, rfl, ?_⟩
          have h1 : min (o.quantity - o.filled) (r.quantity - r.filled)
              ≤ r.quantity - r.filled := min_le_right _ _
          have h2 : r.quantity - r.filled
              ≤ min (o.quantity - o.filled) (r.quantity - r.filled) := by
            linarith
          dsimp only [createTrade]
          linarith
        · obtain ⟨tr, htr, hp⟩ := htake r hr'
          exact ⟨tr, List.mem_cons_of_mem _ htr, hp⟩
      · rename_i hfull
        simp only [updateStatus_quantity, updateStatus_filled, not_le] at hfull
        refine ⟨0, Nat.zero_le _, Or.inr ⟨best, rest,
          min (o.quantity - o.filled) (best.quantity - best.filled), rfl, hqty,
          by linarith, rfl⟩, by simp⟩
    · exact ⟨0, Nat.zero_le _, Or.inl rfl, by simp⟩

/-- Matching preserves the ordering of the bid list. -/
theorem matchSell_sorted (o : Order) (s : List Order)
    (hs : List.Pairwise bidLE s) : List.Pairwise bidLE (matchSell o s).rest := by
  induction s generalizing o with
  | nil => simp [matchSell]
  | cons best rest ih =>
    rw [matchSell]
    dsimp only
    split
    · split
      · exact ih _ (List.Pairwise.of_cons hs)
      · dsimp only
        rw [List.pairwise_cons] at hs ⊢
        refine ⟨fun r hr => ?_, hs.2⟩
        exact bidLE_congr_left (by simp) (by simp) (hs.1 r hr)
    · exact hs

/-- `cancelOrder`'s list helper finds nothing iff no order matches. -/
theorem cancelList_eq_none {orderId : String} {l : List Order} :
    cancelList orderId l = none ↔ ∀ o ∈ l, o.id ≠ orderId := by
  induction l with
  | nil => simp [cancelList]
  | cons x rest ih =>
    rw [cancelList]
    split
    · rename_i hx
      simp only [reduceCtorEq, false_iff]
      intro h
      exact (h x (List.mem_cons_self x rest)) hx
    · rename_i hx
      rcases hc : cancelList orderId rest with _ | ⟨c, rest'⟩
      · simp only [List.mem_cons, true_iff]
        intro o ho
        rcases ho with rfl | ho'
        · exact hx
        · exact (ih.mp hc) o ho'
      · simp only [reduceCtorEq, false_iff]
        have hne : ¬ (∀ o ∈ rest, o.id ≠ orderId) := by
          rw [← ih, hc]; simp
        push_neg at hne
        obtain ⟨o, ho, hid⟩ := hne
        intro h
        exact (h o (List.mem_cons_of_mem x ho)) hid

/-- Decomposition of a successful `cancelOrder` search: the list splits
around the first order carrying the id; that order is returned with its
status set to `cancelled` and spliced out. -/
theorem cancelList_eq_some {orderId : String} {l : List Order}
    {c : Order} {l' : List Order} (h : cancelList orderId l = some (c, l')) :
    ∃ l₁ x l₂, l = l₁ ++ x :: l₂ ∧ l' = l₁ ++ l₂ ∧ x.id = orderId ∧
      c = { x with status := OrderStatus.cancelled } ∧
      ∀ y ∈ l₁, y.id ≠ orderId := by
  induction l generalizing c l' with
  | nil => simp [cancelList] at h
  | cons x rest ih =>
    rw [cancelList] at h
    split at h
    · rename_i hx
      simp only [Option.some.injEq, Prod.mk.injEq] at h
      obtain ⟨rfl, rfl⟩ := h
      exact ⟨[], x, rest, rfl, rfl, hx, rfl, by simp⟩
    · rename_i hx
      rcases hc : cancelList orderId rest with _ | ⟨c0, rest'⟩ <;> rw [hc] at h
      · simp at h
      · simp only [Option.some.injEq, Prod.mk.injEq] at h
        obtain ⟨rfl, rfl⟩ := h
        obtain ⟨l₁, y, l₂, hsplit, hrest, hid, hcc, hnone⟩ := ih hc
        refine ⟨x :: l₁, y, l₂, by rw [hsplit]; rfl, by rw [hrest]; rfl, hid, hcc, ?_⟩
        intro z hz
        rcases List.mem_cons.mp hz with rfl | hz'
        · exact hx
        · exact hnone z hz'

/-- A full fill sets status `filled`. -/
theorem updateStatus_full {o : Order} (h : o.quantity ≤ o.filled) :
    (updateStatus o).status = OrderStatus.filled := by
  unfold updateStatus
  rw [if_pos h]

/-- A strict partial fill sets status `partial`. -/
theorem updateStatus_part {o : Order} (h1 : 0 < o.filled)
    (h2 : o.filled < o.quantity) :
    (updateStatus o).status = OrderStatus.partFilled := by
  unfold updateStatus
  rw [if_neg (by linarith), if_pos h1]

/-- With nothing filled (and quantity outstanding) the status is left
alone. -/
theorem updateStatus_zero {o : Order} (h1 : ¬ o.quantity ≤ o.filled)
    (h2 : ¬ 0 < o.filled) : (updateStatus o).status = o.status := by
  unfold updateStatus
  rw [if_neg h1, if_neg h2]

/-- Unpack `matchedAway` into per-order facts: every surviving order
was resting before, unchanged or with `filled` bumped by `d ≥ 0` (still
short of `quantity`) and status recomputed. -/
theorem matchedAway_mem {old new : List Order} {trades : List Trade}
    {rid : Trade → String} (h : matchedAway old new trades rid) :
    ∀ r' ∈ new, r' ∈ old ∨ ∃ r, r ∈ old ∧ ∃ d, 0 ≤ d ∧
      r.filled + d < r.quantity ∧
      r' = updateStatus { r with filled := r.filled + d } := by
  obtain ⟨n, _, hdisj, _⟩ := h
  intro r' hr'
  rcases hdisj with hq | ⟨hh, t, d, hdrop, hd, hlt, hnew⟩
  · exact Or.inl (List.mem_of_mem_drop (hq ▸ hr'))
  · rw [hnew] at hr'
    rcases List.mem_cons.mp hr' with rfl | hr''
    · exact Or.inr ⟨hh, List.mem_of_mem_drop (hdrop ▸ List.mem_cons_self hh t),
        d, hd, hlt, rfl⟩
    · exact Or.inl (List.mem_of_mem_drop
        (hdrop ▸ List.mem_cons_of_mem hh hr''))

theorem mem_bookOrders_left {r : Order} {b : OrderBook} (h : r ∈ b.buys) :
    r ∈ bookOrders b := List.mem_append_left _ h

theorem mem_bookOrders_right {r : Order} {b : OrderBook} (h : r ∈ b.sells) :
    r ∈ bookOrders b := List.mem_append_right _ h

/-- Cancelling only ever removes orders: both sides of the resulting
book are sublists of the original sides. -/
theorem cancelOrder_sublist (b : OrderBook) (oid : String) :
    ((b.cancelOrder oid).2.buys.Sublist b.buys) ∧
    ((b.cancelOrder oid).2.sells.Sublist b.sells) := by
  unfold OrderBook.cancelOrder
  rcases hb : cancelList oid b.buys with _ | ⟨c, buys'⟩
  · rcases hs : cancelList oid b.sells with _ | ⟨c, sells'⟩
    · exact ⟨List.Sublist.refl _, List.Sublist.refl _⟩
    · obtain ⟨l₁, x, l₂, hsplit, hrest, -, -, -⟩ := cancelList_eq_some hs
      refine ⟨List.Sublist.refl _, ?_⟩
      rw [hsplit, hrest]
      exact List.Sublist.append_left (List.sublist_cons_self x l₂) l₁
  · obtain ⟨l₁, x, l₂, hsplit, hrest, -, -, -⟩ := cancelList_eq_some hb
    refine ⟨?_, List.Sublist.refl _⟩
    rw [hsplit, hrest]
    exact List.Sublist.append_left (List.sublist_cons_self x l₂) l₁

/-- Every order resting after a cancellation was resting before it,
unchanged. -/
theorem cancelOrder_mem {b : OrderBook} {oid : String} :
    ∀ r ∈ bookOrders (b.cancelOrder oid).2, r ∈ bookOrders b := by
  intro r hr
  rcases List.mem_append.mp hr with h | h
  · exact mem_bookOrders_left ((cancelOrder_sublist b oid).1.mem h)
  · exact mem_bookOrders_right ((cancelOrder_sublist b oid).2.mem h)

/-- `cancelOrder` reports success exactly when some resting order
carries the id. -/
theorem cancelOrder_fst_iff (b : OrderBook) (oid : String) :
    (b.cancelOrder oid).1 = true ↔ ∃ o ∈ bookOrders b, o.id = oid := by
  unfold OrderBook.cancelOrder
  rcases hb : cancelList oid b.buys with _ | ⟨c, buys'⟩
  · rcases hs : cancelList oid b.sells with _ | ⟨c, sells'⟩
    · simp only [reduceCtorEq, false_iff, not_exists]
      intro o ho
      rcases List.mem_append.mp ho.1 with h | h
      · exact (cancelList_eq_none.mp hb) o h ho.2
      · exact (cancelList_eq_none.mp hs) o h ho.2
    · simp only [true_iff]
      obtain ⟨l₁, x, l₂, hsplit, -, hid, -, -⟩ := cancelList_eq_some hs
      exact ⟨x, mem_bookOrders_right (hsplit ▸ List.mem_append_right l₁
        (List.mem_cons_self x l₂)), hid⟩
  · simp only [true_iff]
    obtain ⟨l₁, x, l₂, hsplit, -, hid, -, -⟩ := cancelList_eq_some hb
    exact ⟨x, mem_bookOrders_left (hsplit ▸ List.mem_append_right l₁
      (List.mem_cons_self x l₂)), hid⟩

/-- `addOrder` keeps both sides sorted, with no assumption on the
incoming order. -/
theorem addOrder_sorted (b : OrderBook) (o : Order) (hb : SortedBook b) :
    SortedBook (b.addOrder o).book := by
  obtain ⟨hbuys, hsells⟩ := hb
  rw [OrderBook.addOrder]
  rcases ho : o.side with _ | _
  · dsimp only
    unfold SortedBook
    dsimp only
    constructor
    · split
      · exact insertBuy_sorted _ _ hbuys
      · exact hbuys
    · exact matchBuy_sorted o _ hsells
  · dsimp only
    unfold SortedBook
    dsimp only
    constructor
    · exact matchSell_sorted o _ hbuys
    · split
      · exact insertSell_sorted _ _ hsells
      · exact hsells

@[simp]
theorem bookOrders_def (b : OrderBook) : bookOrders b = b.buys ++ b.sells := rfl

/-- `addOrder` only ever rests limit orders with remaining quantity,
with no assumption on the incoming order. -/
theorem addOrder_restingLimit (b : OrderBook) (o : Order) (hb : RestingLimit b) :
    RestingLimit (b.addOrder o).book := by
  have hWFs : ∀ r ∈ b.sells, r.filled ≤ r.quantity :=
    fun r hr => le_of_lt (hb r (mem_bookOrders_right hr)).2
  have hWFb : ∀ r ∈ b.buys, r.filled ≤ r.quantity :=
    fun r hr => le_of_lt (hb r (mem_bookOrders_left hr)).2
  rw [OrderBook.addOrder]
  rcases ho : o.side with _ | _
  · dsimp only
    intro r hr
    simp only [bookOrders_def] at hr
    rcases List.mem_append.mp hr with hl | hrr
    · split at hl
      · rename_i hcond
        rcases mem_insertBuy.mp hl with rfl | hl'
        · exact ⟨hcond.2, hcond.1⟩
        · exact hb _ (mem_bookOrders_left hl')
      · exact hb _ (mem_bookOrders_left hl)
    · rcases matchedAway_mem (matchBuy_matchedAway o b.sells hWFs) r hrr with
        h | ⟨rr, hrrmem, d, hd, hlt, rfl⟩
      · exact hb _ (mem_bookOrders_right h)
      · refine ⟨?_, ?_⟩
        · rw [updateStatus_type]
          exact (hb rr (mem_bookOrders_right hrrmem)).1
        · rw [updateStatus_filled, updateStatus_quantity]
          exact hlt
  · dsimp only
    intro r hr
    simp only [bookOrders_def] at hr
    rcases List.mem_append.mp hr with hl | hrr
    · rcases matchedAway_mem (matchSell_matchedAway o b.buys hWFb) r hl with
        h | ⟨rr, hrrmem, d, hd, hlt, rfl⟩
      · exact hb _ (mem_bookOrders_left h)
      · refine ⟨?_, ?_⟩
        · rw [updateStatus_type]
          exact (hb rr (mem_bookOrders_left hrrmem)).1
        · rw [updateStatus_filled, updateStatus_quantity]
          exact hlt
    · split at hrr
      · rename_i hcond
        rcases mem_insertSell.mp hrr with rfl | hl'
        · exact ⟨hcond.2, hcond.1⟩
        · exact hb _ (mem_bookOrders_right hl')
      · exact hb _ (mem_bookOrders_right hrr)

/-- `addOrder` keeps every resting order's `filled` within
`[0, quantity]`, given a well-formed arrival. -/
theorem addOrder_fillBounds (b : OrderBook) (o : Order) (hb : FillBounds b)
    (ho : ArrivalWF o) : FillBounds (b.addOrder o).book := by
  have hWFs : ∀ r ∈ b.sells, r.filled ≤ r.quantity :=
    fun r hr => (hb r (mem_bookOrders_right hr)).2
  have hWFb : ∀ r ∈ b.buys, r.filled ≤ r.quantity :=
    fun r hr => (hb r (mem_bookOrders_left hr)).2
  rw [OrderBook.addOrder]
  rcases hs : o.side with _ | _
  · dsimp only
    intro r hr
    simp only [bookOrders_def] at hr
    rcases List.mem_append.mp hr with hl | hrr
    · split at hl
      · rename_i hcond
        rcases mem_insertBuy.mp hl with rfl | hl'
        · refine ⟨?_, le_of_lt hcond.1⟩
          rw [updateStatus_filled]
          exact le_trans ho.2.1 (matchBuy_filled_mono o b.sells hWFs)
        · exact hb _ (mem_bookOrders_left hl')
      · exact hb _ (mem_bookOrders_left hl)
    · rcases matchedAway_mem (matchBuy_matchedAway o b.sells hWFs) r hrr with
        h | ⟨rr, hrrmem, d, hd, hlt, rfl⟩
      · exact hb _ (mem_bookOrders_right h)
      · rw [updateStatus_filled, updateStatus_quantity]
        have h0 : (0:ℚ) ≤ rr.filled := (hb rr (mem_bookOrders_right hrrmem)).1
        exact ⟨by dsimp only; linarith, by dsimp only; linarith⟩
  · dsimp only
    intro r hr
    simp only [bookOrders_def] at hr
    rcases List.mem_append.mp hr with hl | hrr
    · rcases matchedAway_mem (matchSell_matchedAway o b.buys hWFb) r hl with
        h | ⟨rr, hrrmem, d, hd, hlt, rfl⟩
      · exact hb _ (mem_bookOrders_left h)
      · rw [updateStatus_filled, updateStatus_quantity]
        have h0 : (0:ℚ) ≤ rr.filled := (hb rr (mem_bookOrders_left hrrmem)).1
        exact ⟨by dsimp only; linarith, by dsimp only; linarith⟩
    · split at hrr
      · rename_i hcond
        rcases mem_insertSell.mp hrr with rfl | hl'
        · refine ⟨?_, le_of_lt hcond.1⟩
          rw [updateStatus_filled]
          exact le_trans ho.2.1 (matchSell_filled_mono o b.buys hWFb)
        · exact hb _ (mem_bookOrders_right hl')
      · exact hb _ (mem_bookOrders_right hrr)

/-- After `updateStatus`, an order short of full fill is `pending` with
zero fill or `partial` with positive fill (provided it was `pending`
when untouched). -/
theorem updateStatus_pendingOrPart {X : Order} (h0 : 0 ≤ X.filled)
    (hlt : X.filled < X.quantity)
    (hpend : X.filled = 0 → X.status = OrderStatus.pending) :
    ((updateStatus X).filled = 0 ∧ (updateStatus X).status = OrderStatus.pending) ∨
    (0 < (updateStatus X).filled ∧ (updateStatus X).status = OrderStatus.partFilled) := by
  by_cases hp : 0 < X.filled
  · exact Or.inr ⟨by rwa [updateStatus_filled], updateStatus_part hp hlt⟩
  · have hz : X.filled = 0 := le_antisymm (not_lt.mp hp) h0
    refine Or.inl ⟨by rwa [updateStatus_filled], ?_⟩
    rw [updateStatus_zero (by linarith) hp]
    exact hpend hz

/-- After `updateStatus` on an order with `0 ≤ filled ≤ quantity`,
`0 < quantity`, and an untouched status of `pending`, the status is
fully determined by the fill state. -/
theorem updateStatus_statusDerived {X : Order} (h0 : 0 ≤ X.filled)
    (hle : X.filled ≤ X.quantity) (hq : 0 < X.quantity)
    (hpend : X.filled = 0 → X.status = OrderStatus.pending) :
    statusDerived (updateStatus X) := by
  unfold statusDerived
  rw [updateStatus_filled, updateStatus_quantity]
  rcases lt_or_eq_of_le hle with hlt | hfq
  · by_cases hp : 0 < X.filled
    · rw [updateStatus_part hp hlt]
      refine ⟨?_, by simp [hp, hlt], ?_, by decide⟩
      · constructor
        · intro h; exact absurd h (by decide)
        · intro h; exfalso; linarith
      · constructor
        · intro h; exact absurd h (by decide)
        · intro h; exfalso; linarith
    · have hz : X.filled = 0 := le_antisymm (not_lt.mp hp) h0
      have hst : (updateStatus X).status = OrderStatus.pending := by
        rw [updateStatus_zero (by linarith) hp]
        exact hpend hz
      rw [hst]
      refine ⟨by simp [hz], ?_, ?_, by decide⟩
      · constructor
        · intro h; exact absurd h (by decide)
        · intro h; exfalso; linarith [h.1]
      · constructor
        · intro h; exact absurd h (by decide)
        · intro h; exfalso; linarith
  · rw [updateStatus_full (le_of_eq hfq.symm)]
    refine ⟨?_, ?_, by simp [hfq], by decide⟩
    · constructor
      · intro h; exact absurd h (by decide)
      · intro h; exfalso; linarith
    · constructor
      · intro h; exact absurd h (by decide)
      · intro h; exfalso; linarith [h.2]

/-- `addOrder` keeps every resting order `pending` on zero fill and
`partial` on positive fill, given a fresh well-formed submission. -/
theorem addOrder_statusInv (b : OrderBook) (o : Order) (hb : StatusInv b)
    (ho : SubmissionWF o) : StatusInv (b.addOrder o).book := by
  have hWFs : ∀ r ∈ b.sells, r.filled ≤ r.quantity :=
    fun r hr => le_of_lt (hb r (mem_bookOrders_right hr)).2.1
  have hWFb : ∀ r ∈ b.buys, r.filled ≤ r.quantity :=
    fun r hr => le_of_lt (hb r (mem_bookOrders_left hr)).2.1
  rw [OrderBook.addOrder]
  rcases hs : o.side with _ | _
  · dsimp only
    intro r hr
    simp only [bookOrders_def] at hr
    rcases List.mem_append.mp hr with hl | hrr
    · split at hl
      · rename_i hcond
        rcases mem_insertBuy.mp hl with rfl | hl'
        · have h0X : (0:ℚ) ≤ (matchBuy o b.sells).order.filled := by
            have := matchBuy_filled_mono o b.sells hWFs
            linarith [ho.2.1 ▸ this]
          have hltX : (matchBuy o b.sells).order.filled <
              (matchBuy o b.sells).order.quantity := by
            have h := hcond.1
            rwa [updateStatus_filled, updateStatus_quantity] at h
          have hpendX : (matchBuy o b.sells).order.filled = 0 →
              (matchBuy o b.sells).order.status = OrderStatus.pending := by
            intro _
            obtain ⟨f, hf⟩ := matchBuy_order_shape o b.sells
            rw [hf]
            exact ho.2.2
          exact ⟨by rwa [updateStatus_filled],
            by rw [updateStatus_filled, updateStatus_quantity]; exact hltX,
            updateStatus_pendingOrPart h0X hltX hpendX⟩
        · exact hb _ (mem_bookOrders_left hl')
      · exact hb _ (mem_bookOrders_left hl)
    · rcases matchedAway_mem (matchBuy_matchedAway o b.sells hWFs) r hrr with
        h | ⟨rr, hrrmem, d, hd, hlt, rfl⟩
      · exact hb _ (mem_bookOrders_right h)
      · have hbrr := hb rr (mem_bookOrders_right hrrmem)
        refine ⟨by rw [updateStatus_filled]; dsimp only; linarith [hbrr.1],
          by rw [updateStatus_filled, updateStatus_quantity]; dsimp only; exact hlt,
          updateStatus_pendingOrPart (by dsimp only; linarith [hbrr.1])
            (by dsimp only; exact hlt) ?_⟩
        intro hz
        dsimp only at hz ⊢
        have hrr0 : rr.filled = 0 := by linarith [hbrr.1]
        rcases hbrr.2.2 with ⟨-, hstat⟩ | ⟨hpos, -⟩
        · exact hstat
        · exfalso; linarith
  · dsimp only
    intro r hr
    simp only [bookOrders_def] at hr
    rcases List.mem_append.mp hr with hl | hrr
    · rcases matchedAway_mem (matchSell_matchedAway o b.buys hWFb) r hl with
        h | ⟨rr, hrrmem, d, hd, hlt, rfl⟩
      · exact hb _ (mem_bookOrders_left h)
      · have hbrr := hb rr (mem_bookOrders_left hrrmem)
        refine ⟨by rw [updateStatus_filled]; dsimp only; linarith [hbrr.1],
          by rw [updateStatus_filled, updateStatus_quantity]; dsimp only; exact hlt,
          updateStatus_pendingOrPart (by dsimp only; linarith [hbrr.1])
            (by dsimp only; exact hlt) ?_⟩
        intro hz
        dsimp only at hz ⊢
        have hrr0 : rr.filled = 0 := by linarith [hbrr.1]
        rcases hbrr.2.2 with ⟨-, hstat⟩ | ⟨hpos, -⟩
        · exact hstat
        · exfalso; linarith
    · split at hrr
      · rename_i hcond
        rcases mem_insertSell.mp hrr with rfl | hl'
        · have h0X : (0:ℚ) ≤ (matchSell o b.buys).order.filled := by
            have := matchSell_filled_mono o b.buys hWFb
            linarith [ho.2.1 ▸ this]
          have hltX : (matchSell o b.buys).order.filled <
              (matchSell o b.buys).order.quantity := by
            have h := hcond.1
            rwa [updateStatus_filled, updateStatus_quantity] at h
          have hpendX : (matchSell o b.buys).order.filled = 0 →
              (matchSell o b.buys).order.status = OrderStatus.pending := by
            intro _
            obtain ⟨f, hf⟩ := matchSell_order_shape o b.buys
            rw [hf]
            exact ho.2.2
          exact ⟨by rwa [updateStatus_filled],
            by rw [updateStatus_filled, updateStatus_quantity]; exact hltX,
            updateStatus_pendingOrPart h0X hltX hpendX⟩
        · exact hb _ (mem_bookOrders_right hl')
      · exact hb _ (mem_bookOrders_right hrr)

/-- The order handed back by `addOrder` carries the status its fill
state dictates. -/
theorem addOrder_statusDerived (b : OrderBook) (o : Order) (hb : FillBounds b)
    (ho : SubmissionWF o) : statusDerived (b.addOrder o).order := by
  have hWFs : ∀ r ∈ b.sells, r.filled ≤ r.quantity :=
    fun r hr => (hb r (mem_bookOrders_right hr)).2
  have hWFb : ∀ r ∈ b.buys, r.filled ≤ r.quantity :=
    fun r hr => (hb r (mem_bookOrders_left hr)).2
  rw [OrderBook.addOrder]
  rcases hs : o.side with _ | _
  · dsimp only
    obtain ⟨f, hf⟩ := matchBuy_order_shape o b.sells
    refine updateStatus_statusDerived ?_ ?_ ?_ ?_
    · have := matchBuy_filled_mono o b.sells hWFs
      linarith [ho.2.1 ▸ this]
    · rw [hf]
      have := matchBuy_filled_le o b.sells (by linarith [ho.2.1, ho.1])
      rw [hf] at this
      exact this
    · rw [hf]
      exact ho.1
    · intro _
      rw [hf]
      exact ho.2.2
  · dsimp only
    obtain ⟨f, hf⟩ := matchSell_order_shape o b.buys
    refine updateStatus_statusDerived ?_ ?_ ?_ ?_
    · have := matchSell_filled_mono o b.buys hWFb
      linarith [ho.2.1 ▸ this]
    · rw [hf]
      have := matchSell_filled_le o b.buys (by linarith [ho.2.1, ho.1])
      rw [hf] at this
      exact this
    · rw [hf]
      exact ho.1
    · intro _
      rw [hf]
      exact ho.2.2

/-- Sortedness is an invariant of every operation sequence. -/
theorem applyOps_sorted (b : OrderBook) (ops : List BookOp) (hb : SortedBook b) :
    SortedBook (b.applyOps ops) := by
  induction ops generalizing b with
  | nil => exact hb
  | cons op ops ih =>
    rw [OrderBook.applyOps]
    refine ih _ ?_
    cases op with
    | add o => exact addOrder_sorted b o hb
    | cancel oid =>
      obtain ⟨h1, h2⟩ := cancelOrder_sublist b oid
      exact ⟨hb.1.sublist h1, hb.2.sublist h2⟩

/-- Only under-filled limit orders rest, across every operation
sequence. -/
theorem applyOps_restingLimit (b : OrderBook) (ops : List BookOp)
    (hb : RestingLimit b) : RestingLimit (b.applyOps ops) := by
  induction ops generalizing b with
  | nil => exact hb
  | cons op ops ih =>
    rw [OrderBook.applyOps]
    refine ih _ ?_
    cases op with
    | add o => exact addOrder_restingLimit b o hb
    | cancel oid => exact fun r hr => hb r (cancelOrder_mem r hr)

/-- Fill bounds are an invariant of every well-formed operation
sequence. -/
theorem applyOps_fillBounds (b : OrderBook) (ops : List BookOp)
    (hb : FillBounds b) (hops : ∀ op ∈ ops, opArrivalWF op) :
    FillBounds (b.applyOps ops) := by
  induction ops generalizing b with
  | nil => exact hb
  | cons op ops ih =>
    rw [OrderBook.applyOps]
    refine ih _ ?_ (fun op' h' => hops op' (List.mem_cons_of_mem op h'))
    cases op with
    | add o => exact addOrder_fillBounds b o hb (hops (BookOp.add o) (List.mem_cons_self _ _))
    | cancel oid => exact fun r hr => hb r (cancelOrder_mem r hr)

/-- The status/fill correspondence is an invariant of every sequence of
fresh submissions and cancellations. -/
theorem applyOps_statusInv (b : OrderBook) (ops : List BookOp)
    (hb : StatusInv b) (hops : ∀ op ∈ ops, opSubmissionWF op) :
    StatusInv (b.applyOps ops) := by
  induction ops generalizing b with
  | nil => exact hb
  | cons op ops ih =>
    rw [OrderBook.applyOps]
    refine ih _ ?_ (fun op' h' => hops op' (List.mem_cons_of_mem op h'))
    cases op with
    | add o => exact addOrder_statusInv b o hb (hops (BookOp.add o) (List.mem_cons_self _ _))
    | cancel oid => exact fun r hr => hb r (cancelOrder_mem r hr)

/-- The empty book satisfies every invariant trivially. -/
theorem emptyBook_invariants (symbol : String) :
    SortedBook (emptyBook symbol) ∧ RestingLimit (emptyBook symbol) ∧
    FillBounds (emptyBook symbol) ∧ StatusInv (emptyBook symbol) := by
  refine ⟨⟨List.Pairwise.nil, List.Pairwise.nil⟩, ?_, ?_, ?_⟩ <;>
    intro r hr <;> simp [emptyBook] at hr

/-- A limit buy priced below the best ask (or facing no asks) matches
nothing. -/
theorem matchBuy_noCross (o : Order) (s : List Order)
    (ht : o.type = OrderType.limit) (h : ∀ x ∈ s.head?, o.price < x.price) :
    matchBuy o s = ⟨o, s, []⟩ := by
  cases s with
  | nil => rfl
  | cons best rest =>
    rw [matchBuy]
    rw [if_neg]
    intro hc
    rcases hc.2 with hm | hp
    · rw [ht] at hm
      exact absurd hm (by decide)
    · exact absurd hp (not_le.mpr (h best (by simp)))

/-- A limit sell priced above the best bid (or facing no bids) matches
nothing. -/
theorem matchSell_noCross (o : Order) (s : List Order)
    (ht : o.type = OrderType.limit) (h : ∀ x ∈ s.head?, x.price < o.price) :
    matchSell o s = ⟨o, s, []⟩ := by
  cases s with
  | nil => rfl
  | cons best rest =>
    rw [matchSell]
    rw [if_neg]
    intro hc
    rcases hc.2 with hm | hp
    · rw [ht] at hm
      exact absurd hm (by decide)
    · exact absurd hp (not_le.mpr (h best (by simp)))

/-- `updateStatus` leaves an untouched fresh order entirely alone. -/
theorem updateStatus_eq_self {o : Order} (hf : o.filled = 0)
    (hq : 0 < o.quantity) : updateStatus o = o := by
  unfold updateStatus
  rw [if_neg (by rw [hf]; intro hc; linarith),
    if_neg (by rw [hf]; exact lt_irrefl 0)]


/-- C1: for a well-formed incoming order (positive quantity, nothing
filled on arrival), the quantities of the trades returned by one
`addOrder` call sum to the increase of that order's `filled` across the
call — equivalently, since `quantity` is untouched, to the decrease of
its remaining quantity. -/
theorem claim_C1 (b : OrderBook) (o : Order) (_hq : 0 < o.quantity)
    (hf : o.filled = 0) :
    tradeSum (b.addOrder o).trades = (b.addOrder o).order.filled ∧
    (b.addOrder o).order.quantity = o.quantity := by
  rw [OrderBook.addOrder]
  rcases hs : o.side with _ | _
  · dsimp only
    constructor
    · rw [updateStatus_filled, matchBuy_tradeSum, hf]
      ring
    · rw [updateStatus_quantity]
      obtain ⟨f, hfo⟩ := matchBuy_order_shape o b.sells
      rw [hfo]
  · dsimp only
    constructor
    · rw [updateStatus_filled, matchSell_tradeSum, hf]
      ring
    · rw [updateStatus_quantity]
      obtain ⟨f, hfo⟩ := matchSell_order_shape o b.buys
      rw [hfo]

theorem claim_C1_witness :
    0 < oBuy.quantity ∧ oBuy.filled = 0 ∧
    (tradeSum (bookA.addOrder oBuy).trades = (bookA.addOrder oBuy).order.filled ∧
     (bookA.addOrder oBuy).order.quantity = oBuy.quantity) :=
  ⟨by decide, rfl, claim_C1 bookA oBuy (by decide) rfl⟩

/-- C2: after any sequence of `addOrder`/`cancelOrder` calls on a fresh
`OrderBook`, the bids are ordered by price descending with `createdAt`
ascending at equal price, and the asks by price ascending with
`createdAt` ascending at equal price (here proved with no assumption at
all on the submitted orders). -/
theorem claim_C2 (symbol : String) (ops : List BookOp) :
    List.Pairwise bidLE ((emptyBook symbol).applyOps ops).getBids ∧
    List.Pairwise askLE ((emptyBook symbol).applyOps ops).getAsks :=
  applyOps_sorted (emptyBook symbol) ops (emptyBook_invariants symbol).1

/-- C3: every trade generated by `addOrder` is priced at the resting
order's price, with `buyOrderId` the id of the buy-side order and
`sellOrderId` the id of the sell-side order, whichever side was
incoming. -/
theorem claim_C3 (b : OrderBook) (o : Order) :
    ∀ t ∈ (b.addOrder o).trades, ∃ r ∈ bookOrders b,
      t.price = r.price ∧
      (o.side = Side.buy → t.buyOrderId = o.id ∧ t.sellOrderId = r.id) ∧
      (o.side = Side.sell → t.sellOrderId = o.id ∧ t.buyOrderId = r.id) := by
  rw [OrderBook.addOrder]
  rcases hs : o.side with _ | _
  · dsimp only
    intro t ht
    obtain ⟨r, hr, hprice, hbid, hsid, -⟩ := matchBuy_trades_spec o b.sells t ht
    exact ⟨r, mem_bookOrders_right hr, hprice,
      fun _ => ⟨hbid, hsid⟩, fun hc => absurd hc (by simp [hs])⟩
  · dsimp only
    intro t ht
    obtain ⟨r, hr, hprice, hbid, hsid, -⟩ := matchSell_trades_spec o b.buys t ht
    exact ⟨r, mem_bookOrders_left hr, hprice,
      fun hc => absurd hc (by simp [hs]), fun _ => ⟨hsid, hbid⟩⟩

theorem claim_C3_witness :
    (createTrade "SYM" 100 3 "b1" "s1") ∈ (bookA.addOrder oBuy).trades ∧
    (∃ r ∈ bookOrders bookA,
      (createTrade "SYM" 100 3 "b1" "s1").price = r.price ∧
      (oBuy.side = Side.buy →
        (createTrade "SYM" 100 3 "b1" "s1").buyOrderId = oBuy.id ∧
        (createTrade "SYM" 100 3 "b1" "s1").sellOrderId = r.id) ∧
      (oBuy.side = Side.sell →
        (createTrade "SYM" 100 3 "b1" "s1").sellOrderId = oBuy.id ∧
        (createTrade "SYM" 100 3 "b1" "s1").buyOrderId = r.id)) :=
  ⟨by norm_num [bookA, oAsk, oBuy, OrderBook.addOrder, matchBuy, updateStatus, createTrade],
   claim_C3 bookA oBuy (createTrade "SYM" 100 3 "b1" "s1")
     (by norm_num [bookA, oAsk, oBuy, OrderBook.addOrder, matchBuy, updateStatus, createTrade])⟩

/-- C4: after any operation sequence on a fresh book, every order in
`getBids()`/`getAsks()` is a limit order with `filled < quantity`; in
particular a market order never rests. -/
theorem claim_C4 (symbol : String) (ops : List BookOp) :
    ∀ r ∈ ((emptyBook symbol).applyOps ops).getBids ++
        ((emptyBook symbol).applyOps ops).getAsks,
      r.type = OrderType.limit ∧ r.type ≠ OrderType.market ∧
      r.filled < r.quantity := by
  intro r hr
  have h := applyOps_restingLimit (emptyBook symbol) ops
    (emptyBook_invariants symbol).2.1 r hr
  exact ⟨h.1, by rw [h.1]; decide, h.2⟩

theorem claim_C4_witness :
    oBuyLow ∈ ((emptyBook "SYM").applyOps
        [BookOp.add oAsk, BookOp.add oMkt, BookOp.add oBuyLow]).getBids ++
      ((emptyBook "SYM").applyOps
        [BookOp.add oAsk, BookOp.add oMkt, BookOp.add oBuyLow]).getAsks ∧
    (oBuyLow.type = OrderType.limit ∧ oBuyLow.type ≠ OrderType.market ∧
     oBuyLow.filled < oBuyLow.quantity) := by
  have hmem : oBuyLow ∈ ((emptyBook "SYM").applyOps
      [BookOp.add oAsk, BookOp.add oMkt, BookOp.add oBuyLow]).getBids ++
      ((emptyBook "SYM").applyOps
        [BookOp.add oAsk, BookOp.add oMkt, BookOp.add oBuyLow]).getAsks := by
    norm_num [OrderBook.applyOps, OrderBook.applyOp, OrderBook.addOrder,
      OrderBook.getBids, OrderBook.getAsks, matchBuy, matchSell, insertBuy,
      insertSell, updateStatus, createTrade, emptyBook, oAsk, oMkt, oBuyLow]
  exact ⟨hmem, claim_C4 "SYM" _ oBuyLow hmem⟩

/-- C5: an incoming limit order that cannot cross — priced strictly
worse than the best opposing order, or facing an empty opposing side —
produces no trades, leaves the opposing side untouched, and is inserted
whole (unchanged) into its own side. -/
theorem claim_C5 (b : OrderBook) (o : Order) (ht : o.type = OrderType.limit)
    (hf : o.filled = 0) (hq : 0 < o.quantity) (hcb : crossBlocked b o) :
    (b.addOrder o).trades = [] ∧
    (o.side = Side.buy → (b.addOrder o).book.sells = b.sells ∧
      (b.addOrder o).book.buys = insertBuy o b.buys ∧
      (b.addOrder o).order = o) ∧
    (o.side = Side.sell → (b.addOrder o).book.buys = b.buys ∧
      (b.addOrder o).book.sells = insertSell o b.sells ∧
      (b.addOrder o).order = o) := by
  rw [OrderBook.addOrder]
  rcases hs : o.side with _ | _ <;> unfold crossBlocked at hcb <;>
    rw [hs] at hcb <;> dsimp only
  · rw [matchBuy_noCross o b.sells ht hcb]
    dsimp only
    rw [updateStatus_eq_self hf hq]
    rw [if_pos ⟨by rw [hf]; exact hq, ht⟩]
    refine ⟨rfl, fun _ => ⟨rfl, rfl, rfl⟩, fun hc => absurd hc (by simp [hs])⟩
  · rw [matchSell_noCross o b.buys ht hcb]
    dsimp only
    rw [updateStatus_eq_self hf hq]
    rw [if_pos ⟨by rw [hf]; exact hq, ht⟩]
    refine ⟨rfl, fun hc => absurd hc (by simp [hs]), fun _ => ⟨rfl, rfl, rfl⟩⟩

theorem claim_C5_witness :
    (oBuyLow.type = OrderType.limit ∧ oBuyLow.filled = 0 ∧
     0 < oBuyLow.quantity ∧ crossBlocked bookA oBuyLow) ∧
    ((bookA.addOrder oBuyLow).trades = [] ∧
     (oBuyLow.side = Side.buy → (bookA.addOrder oBuyLow).book.sells = bookA.sells ∧
       (bookA.addOrder oBuyLow).book.buys = insertBuy oBuyLow bookA.buys ∧
       (bookA.addOrder oBuyLow).order = oBuyLow) ∧
     (oBuyLow.side = Side.sell → (bookA.addOrder oBuyLow).book.buys = bookA.buys ∧
       (bookA.addOrder oBuyLow).book.sells = insertSell oBuyLow bookA.sells ∧
       (bookA.addOrder oBuyLow).order = oBuyLow)) := by
  have hcb : crossBlocked bookA oBuyLow := by
    norm_num [crossBlocked, bookA, oAsk, oBuyLow]
  exact ⟨⟨rfl, rfl, by decide, hcb⟩,
    claim_C5 bookA oBuyLow rfl rfl (by decide) hcb⟩

/-- C6: `0 ≤ filled ≤ quantity` holds for every resting order across
any well-formed operation sequence; one `addOrder` call never decreases
any order's `filled` nor pushes it past `quantity` (the incoming order
only gains fill, staying within bounds, and every surviving resting
order is unchanged, bumped upward by `d ≥ 0`, or is the incoming
order); cancellation touches no order's `filled` at all. -/
theorem claim_C6 :
    (∀ (symbol : String) (ops : List BookOp), (∀ op ∈ ops, opArrivalWF op) →
      FillBounds ((emptyBook symbol).applyOps ops)) ∧
    (∀ (b : OrderBook) (o : Order), FillBounds b → ArrivalWF o →
      o.filled ≤ (b.addOrder o).order.filled ∧
      0 ≤ (b.addOrder o).order.filled ∧
      (b.addOrder o).order.filled ≤ (b.addOrder o).order.quantity ∧
      (b.addOrder o).order.quantity = o.quantity) ∧
    (∀ (b : OrderBook) (o : Order), FillBounds b →
      ∀ r' ∈ bookOrders (b.addOrder o).book,
        r' ∈ bookOrders b ∨
        (∃ r ∈ bookOrders b, ∃ d, 0 ≤ d ∧
          r' = updateStatus { r with filled := r.filled + d }) ∨
        (r'.id = o.id ∧ o.filled ≤ r'.filled)) ∧
    (∀ (b : OrderBook) (oid : String),
      ∀ r' ∈ bookOrders (b.cancelOrder oid).2, r' ∈ bookOrders b) := by
  refine ⟨?_, ?_, ?_, ?_⟩
  · intro symbol ops hops
    exact applyOps_fillBounds (emptyBook symbol) ops
      (emptyBook_invariants symbol).2.2.1 hops
  · intro b o hb ho
    have hWFs : ∀ r ∈ b.sells, r.filled ≤ r.quantity :=
      fun r hr => (hb r (mem_bookOrders_right hr)).2
    have hWFb : ∀ r ∈ b.buys, r.filled ≤ r.quantity :=
      fun r hr => (hb r (mem_bookOrders_left hr)).2
    rw [OrderBook.addOrder]
    rcases hs : o.side with _ | _ <;> dsimp only
    · obtain ⟨f, hfo⟩ := matchBuy_order_shape o b.sells
      refine ⟨by rw [updateStatus_filled]; exact matchBuy_filled_mono o b.sells hWFs,
        by rw [updateStatus_filled];
           exact le_trans ho.2.1 (matchBuy_filled_mono o b.sells hWFs), ?_, ?_⟩
      · rw [updateStatus_filled, updateStatus_quantity]
        have h := matchBuy_filled_le o b.sells ho.2.2
        rw [hfo] at h ⊢
        exact h
      · rw [updateStatus_quantity, hfo]
    · obtain ⟨f, hfo⟩ := matchSell_order_shape o b.buys
      refine ⟨by rw [updateStatus_filled]; exact matchSell_filled_mono o b.buys hWFb,
        by rw [updateStatus_filled];
           exact le_trans ho.2.1 (matchSell_filled_mono o b.buys hWFb), ?_, ?_⟩
      · rw [updateStatus_filled, updateStatus_quantity]
        have h := matchSell_filled_le o b.buys ho.2.2
        rw [hfo] at h ⊢
        exact h
      · rw [updateStatus_quantity, hfo]
  · intro b o hb r' hr'
    have hWFs : ∀ r ∈ b.sells, r.filled ≤ r.quantity :=
      fun r hr => (hb r (mem_bookOrders_right hr)).2
    have hWFb : ∀ r ∈ b.buys, r.filled ≤ r.quantity :=
      fun r hr => (hb r (mem_bookOrders_left hr)).2
    rw [OrderBook.addOrder] at hr'
    rcases hs : o.side with _ | _ <;> rw [hs] at hr' <;> dsimp only at hr' <;>
      simp only [bookOrders_def] at hr'
    · rcases List.mem_append.mp hr' with hl | hrr
      · split at hl
        · rcases mem_insertBuy.mp hl with rfl | hl'
          · refine Or.inr (Or.inr ⟨?_, ?_⟩)
            · rw [updateStatus_id]
              obtain ⟨f, hfo⟩ := matchBuy_order_shape o b.sells
              rw [hfo]
            · rw [updateStatus_filled]
              exact matchBuy_filled_mono o b.sells hWFs
          · exact Or.inl (mem_bookOrders_left hl')
        · exact Or.inl (mem_bookOrders_left hl)
      · rcases matchedAway_mem (matchBuy_matchedAway o b.sells hWFs) r' hrr with
          h | ⟨rr, hrrmem, d, hd, hlt, rfl⟩
        · exact Or.inl (mem_bookOrders_right h)
        · exact Or.inr (Or.inl ⟨rr, mem_bookOrders_right hrrmem, d, hd, rfl⟩)
    · rcases List.mem_append.mp hr' with hl | hrr
      · rcases matchedAway_mem (matchSell_matchedAway o b.buys hWFb) r' hl with
          h | ⟨rr, hrrmem, d, hd, hlt, rfl⟩
        · exact Or.inl (mem_bookOrders_left h)
        · exact Or.inr (Or.inl ⟨rr, mem_bookOrders_left hrrmem, d, hd, rfl⟩)
      · split at hrr
        · rcases mem_insertSell.mp hrr with rfl | hl'
          · refine Or.inr (Or.inr ⟨?_, ?_⟩)
            · rw [updateStatus_id]
              obtain ⟨f, hfo⟩ := matchSell_order_shape o b.buys
              rw [hfo]
            · rw [updateStatus_filled]
              exact matchSell_filled_mono o b.buys hWFb
          · exact Or.inl (mem_bookOrders_right hl')
        · exact Or.inl (mem_bookOrders_right hrr)
  · intro b oid r' hr'
    exact cancelOrder_mem r' hr'

theorem claim_C6_witness :
    (∀ op ∈ [BookOp.add oAsk, BookOp.add oBuy], opArrivalWF op) ∧
    FillBounds ((emptyBook "SYM").applyOps [BookOp.add oAsk, BookOp.add oBuy]) ∧
    (FillBounds bookA ∧ ArrivalWF oBuy) ∧
    (oBuy.filled ≤ (bookA.addOrder oBuy).order.filled ∧
     0 ≤ (bookA.addOrder oBuy).order.filled ∧
     (bookA.addOrder oBuy).order.filled ≤ (bookA.addOrder oBuy).order.quantity ∧
     (bookA.addOrder oBuy).order.quantity = oBuy.quantity) := by
  have hops : ∀ op ∈ [BookOp.add oAsk, BookOp.add oBuy], opArrivalWF op := by
    intro op hop
    rcases List.mem_cons.mp hop with rfl | hop
    · show ArrivalWF oAsk
      unfold ArrivalWF
      decide
    · rcases List.mem_singleton.mp hop with rfl
      show ArrivalWF oBuy
      unfold ArrivalWF
      decide
  have hb : FillBounds bookA := by
    unfold FillBounds
    decide
  have ha : ArrivalWF oBuy := by
    unfold ArrivalWF
    decide
  exact ⟨hops, claim_C6.1 "SYM" _ hops, ⟨hb, ha⟩, claim_C6.2.1 bookA oBuy hb ha⟩

/-- A failed cancellation leaves the book untouched. -/
theorem cancelOrder_not_found {b : OrderBook} {oid : String}
    (h : (b.cancelOrder oid).1 = false) : (b.cancelOrder oid).2 = b := by
  unfold OrderBook.cancelOrder at h ⊢
  rcases hb : cancelList oid b.buys with _ | ⟨c, buys'⟩
  · rw [hb] at h
    rcases hs : cancelList oid b.sells with _ | ⟨c, sells'⟩
    · rfl
    · rw [hs] at h
      simp at h
  · rw [hb] at h
    simp at h

/-- With pairwise-distinct resting ids, a successful cancel followed by
a cancel of the same id fails the second time. -/
theorem cancelOrder_twice {b : OrderBook} {oid : String}
    (hnd : ((bookOrders b).map Order.id).Nodup)
    (h : (b.cancelOrder oid).1 = true) :
    ((b.cancelOrder oid).2.cancelOrder oid).1 = false := by
  by_contra hc
  rw [Bool.not_eq_false] at hc
  obtain ⟨o, ho, hoid⟩ := (cancelOrder_fst_iff _ _).mp hc
  unfold OrderBook.cancelOrder at h ho
  rcases hb : cancelList oid b.buys with _ | ⟨c, buys'⟩ <;> rw [hb] at h ho
  · rcases hs : cancelList oid b.sells with _ | ⟨c, sells'⟩ <;> rw [hs] at h ho
    · simp at h
    · obtain ⟨l₁, x, l₂, hsplit, hrest, hxid, -, hnone⟩ := cancelList_eq_some hs
      have hsub : List.Sublist (x :: l₂) (bookOrders b) := by
        rw [bookOrders_def, hsplit]
        exact (List.sublist_append_right l₁ _).trans
          (List.sublist_append_right b.buys _)
      have hnd2 : ((x :: l₂).map Order.id).Nodup :=
        hnd.sublist (hsub.map Order.id)
      have hxnotin : x.id ∉ l₂.map Order.id := (List.nodup_cons.mp hnd2).1
      dsimp only at ho
      simp only [bookOrders_def] at ho
      rcases List.mem_append.mp ho with hbo | hso
      · exact (cancelList_eq_none.mp hb) o hbo hoid
      · rw [hrest] at hso
        rcases List.mem_append.mp hso with h1 | h2
        · exact hnone o h1 hoid
        · exact hxnotin (List.mem_map.mpr ⟨o, h2, by rw [hoid, hxid]⟩)
  · obtain ⟨l₁, x, l₂, hsplit, hrest, hxid, -, hnone⟩ := cancelList_eq_some hb
    have hsub : List.Sublist (x :: (l₂ ++ b.sells)) (bookOrders b) := by
      rw [bookOrders_def, hsplit, List.append_assoc, List.cons_append]
      exact List.sublist_append_right l₁ _
    have hnd2 : ((x :: (l₂ ++ b.sells)).map Order.id).Nodup :=
      hnd.sublist (hsub.map Order.id)
    have hxnotin : x.id ∉ (l₂ ++ b.sells).map Order.id :=
      (List.nodup_cons.mp hnd2).1
    dsimp only at ho
    simp only [bookOrders_def] at ho
    rcases List.mem_append.mp ho with hbo | hso
    · rw [hrest] at hbo
      rcases List.mem_append.mp hbo with h1 | h2
      · exact hnone o h1 hoid
      · exact hxnotin (List.mem_map.mpr
          ⟨o, List.mem_append_left _ h2, by rw [hoid, hxid]⟩)
    · exact hxnotin (List.mem_map.mpr
        ⟨o, List.mem_append_right _ hso, by rw [hoid, hxid]⟩)

/-- Two engines with identical registries are identical. -/
theorem engine_eq_of_books {e e' : MatchingEngine}
    (h : ∀ s, e.books s = e'.books s) : e = e' := by
  cases e
  cases e'
  exact congrArg MatchingEngine.mk (funext h)

/-- Unfolding equation for `MatchingEngine.cancel` on a present
symbol. -/
theorem engineCancel_some {e : MatchingEngine} {symbol orderId : String}
    {b : OrderBook} (he : e.books symbol = some b) :
    e.cancel symbol orderId =
      ((b.cancelOrder orderId).1,
        ⟨fun s => if s = symbol then some (b.cancelOrder orderId).2
          else e.books s⟩) := by
  unfold MatchingEngine.cancel
  rw [he]

/-- Unfolding equation for `MatchingEngine.cancel` on an absent
symbol. -/
theorem engineCancel_none {e : MatchingEngine} {symbol orderId : String}
    (he : e.books symbol = none) :
    e.cancel symbol orderId = (false, e) := by
  unfold MatchingEngine.cancel
  rw [he]

/-- Decomposition of a successful `cancelOrder`: exactly one order —
the first with the id, searched bids first — is marked `cancelled` and
spliced out; everything else stays put. -/
theorem cancelOrder_true_spec {b : OrderBook} {oid : String}
    (h : (b.cancelOrder oid).1 = true) :
    ∃ l₁ x l₂, x.id = oid ∧
      ((b.buys = l₁ ++ x :: l₂ ∧ (b.cancelOrder oid).2.buys = l₁ ++ l₂ ∧
        (b.cancelOrder oid).2.sells = b.sells ∧
        cancelList oid b.buys =
          some ({ x with status := OrderStatus.cancelled }, l₁ ++ l₂)) ∨
      (b.sells = l₁ ++ x :: l₂ ∧ (b.cancelOrder oid).2.sells = l₁ ++ l₂ ∧
        (b.cancelOrder oid).2.buys = b.buys ∧
        cancelList oid b.sells =
          some ({ x with status := OrderStatus.cancelled }, l₁ ++ l₂))) := by
  rcases hb : cancelList oid b.buys with _ | ⟨c, buys'⟩
  · rcases hs : cancelList oid b.sells with _ | ⟨c, sells'⟩
    · unfold OrderBook.cancelOrder at h
      rw [hb, hs] at h
      simp at h
    · obtain ⟨l₁, x, l₂, hsplit, hrest, hxid, hcc, -⟩ := cancelList_eq_some hs
      have h2 : (b.cancelOrder oid).2 = { b with sells := sells' } := by
        unfold OrderBook.cancelOrder
        rw [hb, hs]
      refine ⟨l₁, x, l₂, hxid, Or.inr ⟨hsplit, ?_, ?_, ?_⟩⟩
      · rw [h2]
        exact hrest
      · rw [h2]
      · rw [← hcc, ← hrest]
  · obtain ⟨l₁, x, l₂, hsplit, hrest, hxid, hcc, -⟩ := cancelList_eq_some hb
    have h2 : (b.cancelOrder oid).2 = { b with buys := buys' } := by
      unfold OrderBook.cancelOrder
      rw [hb]
    refine ⟨l₁, x, l₂, hxid, Or.inl ⟨hsplit, ?_, ?_, ?_⟩⟩
    · rw [h2]
      exact hrest
    · rw [h2]
    · rw [← hcc, ← hrest]

/-- C7: `MatchingEngine.cancel` returns `true` exactly when a book for
the symbol exists and holds a resting order with the id; on `false`
(unknown symbol, unknown id, or an order already filled away or
removed) the engine is completely unchanged — no book is created; on
`true` the first matching order is spliced out with its status set to
`cancelled` and nothing else moves; and (for pairwise-distinct resting
ids) cancelling the same id twice returns `true` then `false`. -/
theorem claim_C7 (e : MatchingEngine) (symbol orderId : String)
    (hnodup : ∀ b, e.books symbol = some b →
      ((bookOrders b).map Order.id).Nodup) :
    ((e.cancel symbol orderId).1 = true ↔
      ∃ b, e.books symbol = some b ∧ ∃ o ∈ bookOrders b, o.id = orderId) ∧
    ((e.cancel symbol orderId).1 = false → (e.cancel symbol orderId).2 = e) ∧
    ((e.cancel symbol orderId).1 = true →
      ∃ b, e.books symbol = some b ∧
        (e.cancel symbol orderId).2.books symbol =
          some (b.cancelOrder orderId).2 ∧
        ∃ l₁ x l₂, x.id = orderId ∧
          ((b.buys = l₁ ++ x :: l₂ ∧ (b.cancelOrder orderId).2.buys = l₁ ++ l₂ ∧
            (b.cancelOrder orderId).2.sells = b.sells ∧
            cancelList orderId b.buys =
              some ({ x with status := OrderStatus.cancelled }, l₁ ++ l₂)) ∨
          (b.sells = l₁ ++ x :: l₂ ∧ (b.cancelOrder orderId).2.sells = l₁ ++ l₂ ∧
            (b.cancelOrder orderId).2.buys = b.buys ∧
            cancelList orderId b.sells =
              some ({ x with status := OrderStatus.cancelled }, l₁ ++ l₂)))) ∧
    ((e.cancel symbol orderId).1 = true →
      ((e.cancel symbol orderId).2.cancel symbol orderId).1 = false) := by
  rcases he : e.books symbol with _ | b
  · rw [engineCancel_none he]
    refine ⟨?_, fun _ => rfl, ?_, ?_⟩
    · simp only [reduceCtorEq, false_iff, not_exists]
      intro b hb
      exact hb.1
    · intro h
      simp at h
    · intro h
      simp at h
  · rw [engineCancel_some he]
    dsimp only
    refine ⟨?_, ?_, ?_, ?_⟩
    · rw [cancelOrder_fst_iff]
      constructor
      · intro h
        exact ⟨b, rfl, h⟩
      · rintro ⟨b', hb', h⟩
        obtain rfl : b = b' := by injection hb'
        exact h
    · intro h
      refine engine_eq_of_books (fun s => ?_)
      dsimp only
      by_cases hss : s = symbol
      · subst hss
        rw [if_pos rfl, cancelOrder_not_found h, he]
      · rw [if_neg hss]
    · intro h
      exact ⟨b, rfl, by rw [if_pos rfl], cancelOrder_true_spec h⟩
    · intro h
      have he' : (⟨fun s => if s = symbol then some (b.cancelOrder orderId).2
          else e.books s⟩ : MatchingEngine).books symbol =
          some (b.cancelOrder orderId).2 := by
        dsimp only
        rw [if_pos rfl]
      rw [engineCancel_some he']
      exact cancelOrder_twice (hnodup b he) h

theorem claim_C7_witness :
    (∀ b, engineA.books "SYM" = some b →
      ((bookOrders b).map Order.id).Nodup) ∧
    (((engineA.cancel "SYM" "b1").1 = true ↔
      ∃ b, engineA.books "SYM" = some b ∧ ∃ o ∈ bookOrders b, o.id = "b1") ∧
    ((engineA.cancel "SYM" "b1").1 = false →
      (engineA.cancel "SYM" "b1").2 = engineA) ∧
    ((engineA.cancel "SYM" "b1").1 = true →
      ∃ b, engineA.books "SYM" = some b ∧
        (engineA.cancel "SYM" "b1").2.books "SYM" =
          some (b.cancelOrder "b1").2 ∧
        ∃ l₁ x l₂, x.id = "b1" ∧
          ((b.buys = l₁ ++ x :: l₂ ∧ (b.cancelOrder "b1").2.buys = l₁ ++ l₂ ∧
            (b.cancelOrder "b1").2.sells = b.sells ∧
            cancelList "b1" b.buys =
              some ({ x with status := OrderStatus.cancelled }, l₁ ++ l₂)) ∨
          (b.sells = l₁ ++ x :: l₂ ∧ (b.cancelOrder "b1").2.sells = l₁ ++ l₂ ∧
            (b.cancelOrder "b1").2.buys = b.buys ∧
            cancelList "b1" b.sells =
              some ({ x with status := OrderStatus.cancelled }, l₁ ++ l₂)))) ∧
    ((engineA.cancel "SYM" "b1").1 = true →
      ((engineA.cancel "SYM" "b1").2.cancel "SYM" "b1").1 = false)) := by
  have hnd : ∀ b, engineA.books "SYM" = some b →
      ((bookOrders b).map Order.id).Nodup := by
    intro b hb
    simp only [engineA, if_pos, Option.some.injEq] at hb
    subst hb
    decide
  exact ⟨hnd, claim_C7 engineA "SYM" "b1" hnd⟩

/-- Orders satisfying the book status invariant have fully derived
statuses. -/
theorem statusInv_statusDerived {b : OrderBook} (hb : StatusInv b) :
    ∀ r ∈ bookOrders b, statusDerived r := by
  intro r hr
  obtain ⟨h0, hlt, hdisj⟩ := hb r hr
  rcases hdisj with ⟨hz, hst⟩ | ⟨hp, hst⟩
  · refine ⟨by rw [hst]; simp [hz], ?_, ?_, by rw [hst]; decide⟩
    · rw [hst]
      constructor
      · intro h
        exact absurd h (by decide)
      · intro h
        exfalso
        linarith [h.1]
    · rw [hst]
      constructor
      · intro h
        exact absurd h (by decide)
      · intro h
        exfalso
        linarith
  · refine ⟨?_, by rw [hst]; simp [hp, hlt], ?_, by rw [hst]; decide⟩
    · rw [hst]
      constructor
      · intro h
        exact absurd h (by decide)
      · intro h
        exfalso
        linarith
    · rw [hst]
      constructor
      · intro h
        exact absurd h (by decide)
      · intro h
        exfalso
        linarith

/-- C8: across any sequence of fresh submissions (filled = 0, status
`pending`) and cancellations, every resting order's status is exactly
the one its fill state dictates (`pending` iff nothing filled,
`partial` iff strictly between, `filled` iff complete, and never
`cancelled`); the order returned by `addOrder` satisfies the same
correspondence, so matching alone never produces `cancelled`. -/
theorem claim_C8 :
    (∀ (symbol : String) (ops : List BookOp),
      (∀ op ∈ ops, opSubmissionWF op) →
      ∀ r ∈ bookOrders ((emptyBook symbol).applyOps ops), statusDerived r) ∧
    (∀ (b : OrderBook) (o : Order), StatusInv b → SubmissionWF o →
      statusDerived (b.addOrder o).order) := by
  constructor
  · intro symbol ops hops
    exact statusInv_statusDerived (applyOps_statusInv (emptyBook symbol) ops
      (emptyBook_invariants symbol).2.2.2 hops)
  · intro b o hb ho
    refine addOrder_statusDerived b o ?_ ho
    intro r hr
    obtain ⟨h0, hlt, -⟩ := hb r hr
    exact ⟨h0, le_of_lt hlt⟩

theorem claim_C8_witness :
    (∀ op ∈ [BookOp.add oAsk, BookOp.add oBuy], opSubmissionWF op) ∧
    (∀ r ∈ bookOrders ((emptyBook "SYM").applyOps
      [BookOp.add oAsk, BookOp.add oBuy]), statusDerived r) ∧
    (StatusInv bookA ∧ SubmissionWF oBuy) ∧
    statusDerived (bookA.addOrder oBuy).order := by
  have hops : ∀ op ∈ [BookOp.add oAsk, BookOp.add oBuy], opSubmissionWF op := by
    intro op hop
    rcases List.mem_cons.mp hop with rfl | hop
    · show SubmissionWF oAsk
      unfold SubmissionWF
      decide
    · rcases List.mem_singleton.mp hop with rfl
      show SubmissionWF oBuy
      unfold SubmissionWF
      decide
  have hb : StatusInv bookA := by
    unfold StatusInv
    decide
  have ho : SubmissionWF oBuy := by
    unfold SubmissionWF
    decide
  exact ⟨hops, claim_C8.1 "SYM" _ hops, ⟨hb, ho⟩, claim_C8.2 bookA oBuy hb ho⟩


/-- C9 evidence: `getBids` hands out the book's own Order references
(`[...this.buys]` copies only the array), so a caller's field write
through the returned view changes the resting orders the book denotes:
the claim that no caller mutation of the returned value can affect the
book fails at this input. -/
theorem claim_C9 :
    getBidsRefs heapA = heapA.buys ∧
    readOrders (mutateStore storeA 0 oBuyMut) (getBidsRefs heapA) ≠
      readOrders storeA heapA.buys := by
  constructor
  · rfl
  · decide

/-- C10: one `addOrder` call rewrites only the incoming order's
`filled`/`status` (every other field is preserved); its own side
changes at most by inserting the incoming order; and the opposite side
is consumed strictly from the front — a best-priority prefix removed,
each removed order receiving a trade for exactly its remaining quantity
(removed only on full fill), at most the next order bumped in place,
and every order beyond untouched in its original position. -/
theorem claim_C10 (b : OrderBook) (o : Order)
    (hWF : ∀ r ∈ bookOrders b, r.filled ≤ r.quantity) :
    ((b.addOrder o).order.id = o.id ∧ (b.addOrder o).order.symbol = o.symbol ∧
     (b.addOrder o).order.side = o.side ∧ (b.addOrder o).order.type = o.type ∧
     (b.addOrder o).order.price = o.price ∧
     (b.addOrder o).order.quantity = o.quantity ∧
     (b.addOrder o).order.createdAt = o.createdAt) ∧
    (o.side = Side.buy →
      ((b.addOrder o).book.buys = b.buys ∨
        (b.addOrder o).book.buys = insertBuy (b.addOrder o).order b.buys) ∧
      matchedAway b.sells (b.addOrder o).book.sells (b.addOrder o).trades
        Trade.sellOrderId) ∧
    (o.side = Side.sell →
      ((b.addOrder o).book.sells = b.sells ∨
        (b.addOrder o).book.sells = insertSell (b.addOrder o).order b.sells) ∧
      matchedAway b.buys (b.addOrder o).book.buys (b.addOrder o).trades
        Trade.buyOrderId) := by
  have hWFs : ∀ r ∈ b.sells, r.filled ≤ r.quantity :=
    fun r hr => hWF r (mem_bookOrders_right hr)
  have hWFb : ∀ r ∈ b.buys, r.filled ≤ r.quantity :=
    fun r hr => hWF r (mem_bookOrders_left hr)
  rw [OrderBook.addOrder]
  rcases hs : o.side with _ | _ <;> dsimp only
  · obtain ⟨f, hfo⟩ := matchBuy_order_shape o b.sells
    refine ⟨⟨?_, ?_, ?_, ?_, ?_, ?_, ?_⟩, fun _ => ⟨?_, ?_⟩,
      fun hc => absurd hc (by decide)⟩
    · rw [updateStatus_id, hfo]
    · rw [updateStatus_symbol, hfo]
    · rw [updateStatus_side, hfo]
      exact hs
    · rw [updateStatus_type, hfo]
    · rw [updateStatus_price, hfo]
    · rw [updateStatus_quantity, hfo]
    · rw [updateStatus_createdAt, hfo]
    · split
      · exact Or.inr rfl
      · exact Or.inl rfl
    · exact matchBuy_matchedAway o b.sells hWFs
  · obtain ⟨f, hfo⟩ := matchSell_order_shape o b.buys
    refine ⟨⟨?_, ?_, ?_, ?_, ?_, ?_, ?_⟩, fun hc => absurd hc (by decide),
      fun _ => ⟨?_, ?_⟩⟩
    · rw [updateStatus_id, hfo]
    · rw [updateStatus_symbol, hfo]
    · rw [updateStatus_side, hfo]
      exact hs
    · rw [updateStatus_type, hfo]
    · rw [updateStatus_price, hfo]
    · rw [updateStatus_quantity, hfo]
    · rw [updateStatus_createdAt, hfo]
    · split
      · exact Or.inr rfl
      · exact Or.inl rfl
    · exact matchSell_matchedAway o b.buys hWFb

theorem claim_C10_witness :
    (∀ r ∈ bookOrders bookA, r.filled ≤ r.quantity) ∧
    (((bookA.addOrder oBuy).order.id = oBuy.id ∧
      (bookA.addOrder oBuy).order.symbol = oBuy.symbol ∧
      (bookA.addOrder oBuy).order.side = oBuy.side ∧
      (bookA.addOrder oBuy).order.type = oBuy.type ∧
      (bookA.addOrder oBuy).order.price = oBuy.price ∧
      (bookA.addOrder oBuy).order.quantity = oBuy.quantity ∧
      (bookA.addOrder oBuy).order.createdAt = oBuy.createdAt) ∧
    (oBuy.side = Side.buy →
      ((bookA.addOrder oBuy).book.buys = bookA.buys ∨
        (bookA.addOrder oBuy).book.buys =
          insertBuy (bookA.addOrder oBuy).order bookA.buys) ∧
      matchedAway bookA.sells (bookA.addOrder oBuy).book.sells
        (bookA.addOrder oBuy).trades Trade.sellOrderId) ∧
    (oBuy.side = Side.sell →
      ((bookA.addOrder oBuy).book.sells = bookA.sells ∨
        (bookA.addOrder oBuy).book.sells =
          insertSell (bookA.addOrder oBuy).order bookA.sells) ∧
      matchedAway bookA.buys (bookA.addOrder oBuy).book.buys
        (bookA.addOrder oBuy).trades Trade.buyOrderId)) := by
  have hWF : ∀ r ∈ bookOrders bookA, r.filled ≤ r.quantity := by
    unfold bookOrders
    decide
  exact ⟨hWF, claim_C10 bookA oBuy hWF⟩
